import Mathlib

/-!
Verification of the core of the `likely` library: the `FitParameter` model
(`src/likely/FitParameter.h`) and the `FunctionMinimum` entity
(`src/likely/FunctionMinimum.cc`) with its packed covariance handling,
Cholesky validation, error extraction and correlated Gaussian sampling.

Real-valued quantities (C++ `double`) are embedded as `ℝ`; machine
floating-point rounding is outside the model.  The external LAPACK routine
`dpptrf` and `std::sqrt` are modelled over `ℝ` exactly.
-/

open scoped Matrix

/-! ## Triangular-number arithmetic for the packed storage layout.

A packed symmetric matrix of order `n` is a row of `n*(n+1)/2` doubles,
element `(i,j)` with `i ≤ j` at offset `i + j*(j+1)/2`
(`src/likely/FunctionMinimum.cc:150`). -/

/-- Length of the packed upper triangle of an `n × n` symmetric matrix. -/
def triSize (n : ℕ) : ℕ := n * (n + 1) / 2

theorem mul_succ_mod_two (n : ℕ) : n * (n + 1) % 2 = 0 := by
  obtain ⟨r, hr⟩ := Nat.even_mul_succ_self n
  omega

theorem triSize_succ (n : ℕ) : triSize (n + 1) = triSize n + (n + 1) := by
  have h : n * (n + 1) % 2 = 0 := mul_succ_mod_two n
  have e : (n + 1) * (n + 1 + 1) = n * (n + 1) + 2 * (n + 1) := by ring
  unfold triSize
  omega

theorem triSize_mono : Monotone triSize := by
  intro a b hab
  induction b with
  | zero =>
    have : a = 0 := Nat.le_zero.mp hab
    simp [this]
  | succ b ih =>
    rcases Nat.lt_or_ge a (b + 1) with h | h
    · exact le_trans (ih (Nat.lt_succ_iff.mp h)) (by rw [triSize_succ]; omega)
    · have : a = b + 1 := le_antisymm hab h
      simp [this]

/-- The packed offset of element `(i, j)` with `i ≤ j` is injective in `(i, j)`. -/
theorem packed_index_inj {i j i' j' : ℕ} (hij : i ≤ j) (hij' : i' ≤ j')
    (h : i + triSize j = i' + triSize j') : i = i' ∧ j = j' := by
  have key : ∀ {a b a' b' : ℕ}, a ≤ b → a' ≤ b' → b < b' →
      a + triSize b < a' + triSize b' := by
    intro a b a' b' hab hab' hbb
    have h1 : a + triSize b < triSize (b + 1) := by rw [triSize_succ]; omega
    have h2 : triSize (b + 1) ≤ triSize b' := triSize_mono hbb
    omega
  rcases Nat.lt_trichotomy j j' with hj | hj | hj
  · exact absurd h (Nat.ne_of_lt (key hij hij' hj))
  · subst hj; omega
  · exact absurd h.symm (Nat.ne_of_lt (key hij' hij hj))

/-- Diagonal element `(i, i)` sits at packed offset `i*(i+3)/2`
(`src/likely/FunctionMinimum.cc:57,80`), which equals `i + triSize i`. -/
theorem diag_packed_index (i : ℕ) : i * (i + 3) / 2 = i + triSize i := by
  have h : i * (i + 1) % 2 = 0 := mul_succ_mod_two i
  have e : i * (i + 3) = i * (i + 1) + 2 * i := by ring
  unfold triSize
  omega

theorem diag_packed_index_lt_iff {i n : ℕ} :
    i * (i + 3) / 2 < triSize n ↔ i < n := by
  rw [diag_packed_index]
  constructor
  · intro h
    by_contra hn
    have : triSize n ≤ triSize i := triSize_mono (by omega)
    omega
  · intro h
    have h1 : i + triSize i < triSize (i + 1) := by rw [triSize_succ]; omega
    exact lt_of_lt_of_le h1 (triSize_mono h)

/-- Recovering the order from a triangular length, as
`std::floor(0.5*std::sqrt(1+8*nCov))` does at
`src/likely/FunctionMinimum.cc:91` (exact-arithmetic model): if the length
really is triangular the computation recovers the order. -/
theorem sqrt_recovers_order (m : ℕ) : Nat.sqrt (1 + 8 * triSize m) / 2 = m := by
  have h : m * (m + 1) % 2 = 0 := mul_succ_mod_two m
  have h8 : 1 + 8 * triSize m = (2 * m + 1) * (2 * m + 1) := by
    have e : (2 * m + 1) * (2 * m + 1) = 4 * (m * (m + 1)) + 1 := by ring
    unfold triSize
    omega
  rw [h8, Nat.sqrt_eq]
  omega

/-- A length is triangular iff the check at
`src/likely/FunctionMinimum.cc:92` passes. -/
theorem triangular_iff_check_passes (L : ℕ) :
    (∃ m, L = triSize m) ↔ L = triSize (Nat.sqrt (1 + 8 * L) / 2) := by
  constructor
  · rintro ⟨m, rfl⟩
    rw [sqrt_recovers_order]
  · intro h
    exact ⟨_, h⟩

/-! ## FitParameter (`src/likely/FitParameter.h`)

A fit parameter is a name, a value and a sign-encoded error: `error > 0`
means floating, `error < 0` temporarily fixed, `error = 0` permanently
fixed. -/

structure FitParameter where
  _name : String
  _value : ℝ
  _error : ℝ

/-- `inline std::string FitParameter::getName() const { return _name; }` -/
def FitParameter.getName (p : FitParameter) : String := p._name

/-- `inline double FitParameter::getValue() const { return _value; }` -/
def FitParameter.getValue (p : FitParameter) : ℝ := p._value

/-- `inline void FitParameter::setValue(double value) { _value = value; }` -/
def FitParameter.setValue (p : FitParameter) (value : ℝ) : FitParameter :=
  { p with _value := value }

/-- `inline double FitParameter::getError() const { return _error; }` -/
def FitParameter.getError (p : FitParameter) : ℝ := p._error

/-- `inline void FitParameter::fix() { if(_error > 0) _error = -_error; }` -/
noncomputable def FitParameter.fix (p : FitParameter) : FitParameter :=
  if p._error > 0 then { p with _error := -p._error } else p

/-- `inline void FitParameter::release() { if(_error < 0) _error = -_error; }` -/
noncomputable def FitParameter.release (p : FitParameter) : FitParameter :=
  if p._error < 0 then { p with _error := -p._error } else p

/-- `inline bool FitParameter::isFloating() const { return (_error > 0); }` -/
def FitParameter.isFloating (p : FitParameter) : Prop := p._error > 0

/-- Claim C7: for every `FitParameter` that is floating (`error > 0`),
`fix()` followed by `release()` restores the value and the original error
exactly, and the parameter is floating again. -/
theorem fitParameter_fix_release_roundtrip (p : FitParameter)
    (h : p.isFloating) :
    (p.fix.release).getValue = p.getValue ∧
      (p.fix.release).getError = p.getError ∧ (p.fix.release).isFloating := by
  have hpos : p._error > 0 := h
  have hfix : p.fix = { p with _error := -p._error } := by
    unfold FitParameter.fix
    rw [if_pos hpos]
  have hrel : p.fix.release = p := by
    rw [hfix]
    unfold FitParameter.release
    simp only [neg_lt_zero]
    rw [if_pos hpos]
    simp
  rw [hrel]
  exact ⟨rfl, rfl, h⟩

/-- Witness for C7 at the spec's scenario A: `FitParameter("m", 1.5, 0.2)`. -/
theorem fitParameter_fix_release_roundtrip_witness :
    (FitParameter.isFloating ⟨"m", 1.5, 0.2⟩) ∧
      ((FitParameter.fix ⟨"m", 1.5, 0.2⟩).release.getValue = 1.5 ∧
        (FitParameter.fix ⟨"m", 1.5, 0.2⟩).release.getError = 0.2 ∧
        (FitParameter.fix ⟨"m", 1.5, 0.2⟩).release.isFloating) := by
  have hfloat : FitParameter.isFloating ⟨"m", 1.5, 0.2⟩ := by
    unfold FitParameter.isFloating
    norm_num
  exact ⟨hfloat, fitParameter_fix_release_roundtrip ⟨"m", 1.5, 0.2⟩ hfloat⟩

/-! ## The external Cholesky primitive

The source binds LAPACK `dpptrf` (`src/likely/FunctionMinimum.cc:14-18`),
which is not part of this repository.  Following the spec (§4.1, §6) it is
modelled as an exact packed upper Cholesky factorization: status zero
(`some` here) exactly when the decomposition exists, i.e. when the input is
positive definite.  We first build the factorization on square matrices and
later wrap it in the packed storage layout. -/

/-- Transposes of real Hermitian matrices: `Cᴴ = C` gives `Cᵀ = C`. -/
theorem transpose_eq_of_isHermitian {n : ℕ} {C : Matrix (Fin n) (Fin n) ℝ}
    (h : C.IsHermitian) : Cᵀ = C := by
  rw [← Matrix.conjTranspose_eq_transpose_of_trivial]
  exact h

theorem isHermitian_of_transpose {n : ℕ} {C : Matrix (Fin n) (Fin n) ℝ}
    (h : Cᵀ = C) : C.IsHermitian := by
  rw [Matrix.IsHermitian, Matrix.conjTranspose_eq_transpose_of_trivial]
  exact h

/-- The bordered column of the last row/column decomposition of `C`. -/
def cholCol {n : ℕ} (C : Matrix (Fin (n + 1)) (Fin (n + 1)) ℝ) : Fin n → ℝ :=
  fun i => C (Fin.castSucc i) (Fin.last n)

/-- Modelled from the spec: the forward substitution step of the packed
Cholesky routine, solving `U₀ᵀ w = c` for the new column `w` (expressed
through the matrix inverse, which agrees with the triangular substitution
whenever `U₀` is invertible). -/
noncomputable def cholSolve {n : ℕ} (U₀ : Matrix (Fin n) (Fin n) ℝ)
    (C : Matrix (Fin (n + 1)) (Fin (n + 1)) ℝ) : Fin n → ℝ :=
  (U₀ᵀ)⁻¹ *ᵥ cholCol C

/-- Modelled from the spec: the pivot tested by the final column step of the
Cholesky routine. -/
noncomputable def cholPivot {n : ℕ} (U₀ : Matrix (Fin n) (Fin n) ℝ)
    (C : Matrix (Fin (n + 1)) (Fin (n + 1)) ℝ) : ℝ :=
  C (Fin.last n) (Fin.last n) - cholSolve U₀ C ⬝ᵥ cholSolve U₀ C

/-- Extend an upper-triangular factor by one bordered column `w` and corner
entry `s`. -/
def extendU {n : ℕ} (U₀ : Matrix (Fin n) (Fin n) ℝ) (w : Fin n → ℝ)
    (s : ℝ) : Matrix (Fin (n + 1)) (Fin (n + 1)) ℝ :=
  Matrix.of (Fin.snoc (fun i => Fin.snoc (U₀ i) (w i)) (Fin.snoc 0 s))

theorem extendU_castSucc_castSucc {n : ℕ} (U₀ : Matrix (Fin n) (Fin n) ℝ)
    (w : Fin n → ℝ) (s : ℝ) (i j : Fin n) :
    extendU U₀ w s (Fin.castSucc i) (Fin.castSucc j) = U₀ i j := by
  simp [extendU]

theorem extendU_castSucc_last {n : ℕ} (U₀ : Matrix (Fin n) (Fin n) ℝ)
    (w : Fin n → ℝ) (s : ℝ) (i : Fin n) :
    extendU U₀ w s (Fin.castSucc i) (Fin.last n) = w i := by
  simp [extendU]

theorem extendU_last_castSucc {n : ℕ} (U₀ : Matrix (Fin n) (Fin n) ℝ)
    (w : Fin n → ℝ) (s : ℝ) (j : Fin n) :
    extendU U₀ w s (Fin.last n) (Fin.castSucc j) = 0 := by
  simp [extendU]

theorem extendU_last_last {n : ℕ} (U₀ : Matrix (Fin n) (Fin n) ℝ)
    (w : Fin n → ℝ) (s : ℝ) :
    extendU U₀ w s (Fin.last n) (Fin.last n) = s := by
  simp [extendU]

/-- Modelled from the spec: the external LAPACK routine `dpptrf`, declared at
`src/likely/FunctionMinimum.cc:16-18` and specified in §4.1/§6 of the spec
as an in-place packed upper Cholesky factorization, here written as a
recursion over the matrix order; `none` models a nonzero `info` status
(failure at some pivot). -/
noncomputable def cholMatrix : (n : ℕ) → Matrix (Fin n) (Fin n) ℝ →
    Option (Matrix (Fin n) (Fin n) ℝ)
  | 0, _ => some (Matrix.of fun i _ => i.elim0)
  | n + 1, C =>
    match cholMatrix n (C.submatrix Fin.castSucc Fin.castSucc) with
    | none => none
    | some U₀ =>
      if 0 < cholPivot U₀ C then
        some (extendU U₀ (cholSolve U₀ C) (Real.sqrt (cholPivot U₀ C)))
      else none

/-- A nonzero real vector has positive dot product with itself. -/
theorem dotProduct_self_pos_of_ne {n : ℕ} {z : Fin n → ℝ} (hz : z ≠ 0) :
    0 < z ⬝ᵥ z := by
  obtain ⟨i, hi⟩ := Function.ne_iff.mp hz
  have hi' : z i ≠ 0 := by simpa using hi
  exact Finset.sum_pos' (fun j _ => mul_self_nonneg (z j))
    ⟨i, Finset.mem_univ i, mul_self_pos.mpr hi'⟩

/-- An upper-triangular matrix with positive diagonal has positive
determinant. -/
theorem upperTri_det_pos {n : ℕ} {U : Matrix (Fin n) (Fin n) ℝ}
    (hdiag : ∀ i, 0 < U i i) (htri : ∀ i j : Fin n, (j : ℕ) < (i : ℕ) → U i j = 0) :
    0 < U.det := by
  have hblock : U.BlockTriangular id := by
    intro i j hij
    exact htri i j hij
  rw [Matrix.det_of_upperTriangular hblock]
  exact Finset.prod_pos fun i _ => hdiag i

/-- Splitting the quadratic form of a symmetric `(n+1) × (n+1)` matrix along
its last row and column. -/
theorem quad_split {n : ℕ} (C : Matrix (Fin (n + 1)) (Fin (n + 1)) ℝ)
    (hsym : Cᵀ = C) (y : Fin n → ℝ) (t : ℝ) :
    (Fin.snoc y t : Fin (n + 1) → ℝ) ⬝ᵥ
        (C *ᵥ (Fin.snoc y t : Fin (n + 1) → ℝ)) =
      y ⬝ᵥ (C.submatrix Fin.castSucc Fin.castSucc *ᵥ y) +
        2 * t * (y ⬝ᵥ cholCol C) +
        t * t * C (Fin.last n) (Fin.last n) := by
  have hlast : ∀ j : Fin n,
      C (Fin.last n) (Fin.castSucc j) = C (Fin.castSucc j) (Fin.last n) := by
    intro j
    have h := congrFun (congrFun hsym (Fin.castSucc j)) (Fin.last n)
    simpa [Matrix.transpose_apply] using h
  simp only [Matrix.dotProduct, Matrix.mulVec, Fin.sum_univ_castSucc,
    Fin.snoc_castSucc, Fin.snoc_last, Matrix.submatrix_apply, cholCol, hlast]
  simp only [mul_add, Finset.sum_add_distrib, Finset.mul_sum, Finset.sum_mul]
  have hc1 : ∀ i : Fin n,
      y i * (C (Fin.castSucc i) (Fin.last n) * t) =
        y i * C (Fin.castSucc i) (Fin.last n) * t := fun i => by ring
  have hc2 : ∀ j : Fin n,
      t * (C (Fin.castSucc j) (Fin.last n) * y j) =
        y j * C (Fin.castSucc j) (Fin.last n) * t := fun j => by ring
  rw [Finset.sum_congr rfl fun i _ => hc1 i, Finset.sum_congr rfl fun j _ => hc2 j]
  ring_nf
  rw [show (∑ i : Fin n, y i * C i.castSucc (Fin.last n) * t) * 2 =
      ∑ i : Fin n, t * 2 * y i * C i.castSucc (Fin.last n) from by
    rw [Finset.sum_mul]
    exact Finset.sum_congr rfl fun i _ => by ring]
  ring

/-- The leading principal submatrix of a positive-definite matrix is
positive definite. -/
theorem posDef_submatrix_castSucc {n : ℕ}
    {C : Matrix (Fin (n + 1)) (Fin (n + 1)) ℝ} (hC : C.PosDef) :
    (C.submatrix Fin.castSucc Fin.castSucc).PosDef := by
  have hsym : Cᵀ = C := transpose_eq_of_isHermitian hC.1
  refine ⟨hC.1.submatrix Fin.castSucc, fun x hx => ?_⟩
  have hstar : star x = x := by
    funext i
    simp
  have hxext : (Fin.snoc x 0 : Fin (n + 1) → ℝ) ≠ 0 := by
    intro h0
    apply hx
    funext i
    have := congrFun h0 (Fin.castSucc i)
    simpa using this
  have hq := hC.2 (Fin.snoc x 0) hxext
  have hstar' : star (Fin.snoc x 0 : Fin (n + 1) → ℝ) = Fin.snoc x 0 := by
    funext i
    simp
  rw [hstar', quad_split C hsym x 0] at hq
  rw [hstar]
  calc (0 : ℝ) < x ⬝ᵥ (C.submatrix Fin.castSucc Fin.castSucc *ᵥ x) +
        2 * 0 * (x ⬝ᵥ cholCol C) + 0 * 0 * C (Fin.last n) (Fin.last n) := hq
    _ = x ⬝ᵥ (C.submatrix Fin.castSucc Fin.castSucc *ᵥ x) := by ring

/-- The factor produced by a successful Cholesky run is upper triangular
with positive diagonal, and reproduces the input as `Uᵀ * U`. -/
theorem cholMatrix_spec : ∀ {n : ℕ} {C U : Matrix (Fin n) (Fin n) ℝ},
    Cᵀ = C → cholMatrix n C = some U →
      Uᵀ * U = C ∧ (∀ i, 0 < U i i) ∧ ∀ i j : Fin n, (j : ℕ) < (i : ℕ) → U i j = 0 := by
  intro n
  induction n with
  | zero =>
    intro C U _ h
    simp only [cholMatrix, Option.some.injEq] at h
    subst h
    refine ⟨?_, fun i => i.elim0, fun i j _ => i.elim0⟩
    ext i j
    exact i.elim0
  | succ n ih =>
    intro C U hsym h
    have hsub : (C.submatrix Fin.castSucc Fin.castSucc)ᵀ =
        C.submatrix Fin.castSucc Fin.castSucc := by
      ext i j
      have := congrFun (congrFun hsym (Fin.castSucc i)) (Fin.castSucc j)
      simpa [Matrix.transpose_apply] using this
    rcases hrec : cholMatrix n (C.submatrix Fin.castSucc Fin.castSucc) with _ | U₀
    · simp only [cholMatrix, hrec] at h
      exact absurd h (by simp)
    · simp only [cholMatrix, hrec] at h
      by_cases hd : 0 < cholPivot U₀ C
      · rw [if_pos hd] at h
        obtain ⟨hUtU, hdiag, htri⟩ := ih hsub hrec
        have hdet : 0 < U₀.det := upperTri_det_pos hdiag htri
        have hUnitT : IsUnit U₀ᵀ.det := by
          rw [Matrix.det_transpose]
          exact isUnit_iff_ne_zero.mpr (ne_of_gt hdet)
        have hsolve : U₀ᵀ *ᵥ cholSolve U₀ C = cholCol C := by
          unfold cholSolve
          rw [Matrix.mulVec_mulVec, Matrix.mul_nonsing_inv _ hUnitT,
            Matrix.one_mulVec]
        injection h with h
        subst h
        refine ⟨?_, ?_, ?_⟩
        · ext i j
          rw [Matrix.mul_apply]
          induction i using Fin.lastCases with
          | last =>
            induction j using Fin.lastCases with
            | last =>
              rw [Fin.sum_univ_castSucc]
              simp only [Matrix.transpose_apply, extendU_castSucc_last,
                extendU_last_last]
              have hs : Real.sqrt (cholPivot U₀ C) * Real.sqrt (cholPivot U₀ C) =
                  cholPivot U₀ C := Real.mul_self_sqrt (le_of_lt hd)
              have hp : cholSolve U₀ C ⬝ᵥ cholSolve U₀ C =
                  ∑ k, cholSolve U₀ C k * cholSolve U₀ C k := rfl
              rw [hs]
              unfold cholPivot
              rw [hp]
              ring
            | cast j' =>
              rw [Fin.sum_univ_castSucc]
              simp only [Matrix.transpose_apply, extendU_castSucc_last,
                extendU_castSucc_castSucc, extendU_last_castSucc,
                extendU_last_last, mul_zero, add_zero]
              have := congrFun hsolve j'
              simp only [Matrix.mulVec, Matrix.dotProduct, Matrix.transpose_apply,
                cholCol] at this
              have hflip : C (Fin.last n) (Fin.castSucc j') =
                  C (Fin.castSucc j') (Fin.last n) := by
                have h := congrFun (congrFun hsym (Fin.castSucc j')) (Fin.last n)
                simpa [Matrix.transpose_apply] using h
              rw [hflip, ← this]
              exact Finset.sum_congr rfl fun k _ => mul_comm _ _
          | cast i' =>
            induction j using Fin.lastCases with
            | last =>
              rw [Fin.sum_univ_castSucc]
              simp only [Matrix.transpose_apply, extendU_castSucc_castSucc,
                extendU_castSucc_last, extendU_last_castSucc, zero_mul, add_zero]
              have := congrFun hsolve i'
              simp only [Matrix.mulVec, Matrix.dotProduct, Matrix.transpose_apply,
                cholCol] at this
              exact this
            | cast j' =>
              rw [Fin.sum_univ_castSucc]
              simp only [Matrix.transpose_apply, extendU_castSucc_castSucc,
                extendU_last_castSucc, zero_mul, add_zero]
              have := congrFun (congrFun hUtU i') j'
              simp only [Matrix.mul_apply, Matrix.transpose_apply,
                Matrix.submatrix_apply] at this
              exact this
        · intro i
          induction i using Fin.lastCases with
          | last =>
            rw [extendU_last_last]
            exact Real.sqrt_pos.mpr hd
          | cast i' =>
            rw [extendU_castSucc_castSucc]
            exact hdiag i'
        · intro i j hij
          induction i using Fin.lastCases with
          | last =>
            induction j using Fin.lastCases with
            | last => simp at hij
            | cast j' => exact extendU_last_castSucc U₀ _ _ j'
          | cast i' =>
            induction j using Fin.lastCases with
            | last =>
              exfalso
              have h1 : (Fin.last n : Fin (n + 1)).val = n := rfl
              have h2 : (Fin.castSucc i').val = i'.val := rfl
              have h3 : i'.val < n := i'.isLt
              omega
            | cast j' =>
              rw [extendU_castSucc_castSucc]
              exact htri i' j' hij
      · rw [if_neg hd] at h
        exact absurd h (by simp)

/-- If the Cholesky routine succeeds on a symmetric matrix, that matrix is
positive definite (`C = Uᵀ U` with `U` invertible). -/
theorem posDef_of_cholMatrix_some {n : ℕ} {C U : Matrix (Fin n) (Fin n) ℝ}
    (hsym : Cᵀ = C) (h : cholMatrix n C = some U) : C.PosDef := by
  obtain ⟨hUtU, hdiag, htri⟩ := cholMatrix_spec hsym h
  have hdet : 0 < U.det := upperTri_det_pos hdiag htri
  have hUnit : IsUnit U.det := isUnit_iff_ne_zero.mpr (ne_of_gt hdet)
  refine ⟨isHermitian_of_transpose hsym, fun x hx => ?_⟩
  have hstar : star x = x := by
    funext i
    simp
  rw [hstar, ← hUtU, ← Matrix.mulVec_mulVec, Matrix.dotProduct_mulVec,
    Matrix.vecMul_transpose]
  have hz : U *ᵥ x ≠ 0 := by
    intro h0
    apply hx
    calc x = 1 *ᵥ x := (Matrix.one_mulVec x).symm
      _ = (U⁻¹ * U) *ᵥ x := by rw [Matrix.nonsing_inv_mul _ hUnit]
      _ = U⁻¹ *ᵥ (U *ᵥ x) := (Matrix.mulVec_mulVec x U⁻¹ U).symm
      _ = U⁻¹ *ᵥ 0 := by rw [h0]
      _ = 0 := Matrix.mulVec_zero _
  exact dotProduct_self_pos_of_ne hz

/-- On a positive-definite input the Cholesky routine succeeds. -/
theorem cholMatrix_isSome_of_posDef : ∀ {n : ℕ}
    {C : Matrix (Fin n) (Fin n) ℝ}, C.PosDef → (cholMatrix n C).isSome := by
  intro n
  induction n with
  | zero =>
    intro C _
    simp [cholMatrix]
  | succ n ih =>
    intro C hC
    have hsym : Cᵀ = C := transpose_eq_of_isHermitian hC.1
    have hsub : (C.submatrix Fin.castSucc Fin.castSucc)ᵀ =
        C.submatrix Fin.castSucc Fin.castSucc := by
      ext i j
      have := congrFun (congrFun hsym (Fin.castSucc i)) (Fin.castSucc j)
      simpa [Matrix.transpose_apply] using this
    have hsubPD := posDef_submatrix_castSucc hC
    obtain ⟨U₀, hrec⟩ := Option.isSome_iff_exists.mp (ih hsubPD)
    obtain ⟨hUtU, hdiag, htri⟩ := cholMatrix_spec hsub hrec
    have hdet : 0 < U₀.det := upperTri_det_pos hdiag htri
    have hUnitT : IsUnit U₀ᵀ.det := by
      rw [Matrix.det_transpose]
      exact isUnit_iff_ne_zero.mpr (ne_of_gt hdet)
    have hDUnit : IsUnit (C.submatrix Fin.castSucc Fin.castSucc).det :=
      isUnit_iff_ne_zero.mpr (ne_of_gt hsubPD.det_pos)
    -- the solved column squares to the Schur-complement correction term
    have hw : cholSolve U₀ C ⬝ᵥ cholSolve U₀ C =
        ((C.submatrix Fin.castSucc Fin.castSucc)⁻¹ *ᵥ cholCol C) ⬝ᵥ cholCol C := by
      unfold cholSolve
      calc ((U₀ᵀ)⁻¹ *ᵥ cholCol C) ⬝ᵥ ((U₀ᵀ)⁻¹ *ᵥ cholCol C)
          = (((U₀ᵀ)⁻¹ *ᵥ cholCol C) ᵥ* (U₀ᵀ)⁻¹) ⬝ᵥ cholCol C :=
            Matrix.dotProduct_mulVec _ _ _
        _ = (((U₀ᵀ)⁻¹ *ᵥ cholCol C) ᵥ* (U₀⁻¹)ᵀ) ⬝ᵥ cholCol C := by
            rw [Matrix.transpose_nonsing_inv]
        _ = ((U₀⁻¹ *ᵥ ((U₀ᵀ)⁻¹ *ᵥ cholCol C))) ⬝ᵥ cholCol C := by
            rw [Matrix.vecMul_transpose]
        _ = ((U₀⁻¹ * (U₀ᵀ)⁻¹) *ᵥ cholCol C) ⬝ᵥ cholCol C := by
            rw [Matrix.mulVec_mulVec]
        _ = ((U₀ᵀ * U₀)⁻¹ *ᵥ cholCol C) ⬝ᵥ cholCol C := by
            rw [Matrix.mul_inv_rev]
        _ = ((C.submatrix Fin.castSucc Fin.castSucc)⁻¹ *ᵥ cholCol C) ⬝ᵥ
              cholCol C := by rw [hUtU]
    -- the pivot is the quadratic form of `C` at a nonzero vector
    have hx : (Fin.snoc (-((C.submatrix Fin.castSucc Fin.castSucc)⁻¹ *ᵥ
        cholCol C)) 1 : Fin (n + 1) → ℝ) ≠ 0 := by
      intro h0
      have := congrFun h0 (Fin.last n)
      simp [Fin.snoc_last] at this
    have hq := hC.2 _ hx
    have hstar : star (Fin.snoc (-((C.submatrix Fin.castSucc Fin.castSucc)⁻¹ *ᵥ
        cholCol C)) 1 : Fin (n + 1) → ℝ) = Fin.snoc
          (-((C.submatrix Fin.castSucc Fin.castSucc)⁻¹ *ᵥ cholCol C)) 1 := by
      funext i
      simp
    rw [hstar, quad_split C hsym _ 1] at hq
    have hDD : C.submatrix Fin.castSucc Fin.castSucc *ᵥ
        (-((C.submatrix Fin.castSucc Fin.castSucc)⁻¹ *ᵥ cholCol C)) =
          -cholCol C := by
      rw [Matrix.mulVec_neg, Matrix.mulVec_mulVec,
        Matrix.mul_nonsing_inv _ hDUnit, Matrix.one_mulVec]
    rw [hDD] at hq
    have hq' : 0 < C (Fin.last n) (Fin.last n) -
        ((C.submatrix Fin.castSucc Fin.castSucc)⁻¹ *ᵥ cholCol C) ⬝ᵥ cholCol C := by
      have hexp : (-((C.submatrix Fin.castSucc Fin.castSucc)⁻¹ *ᵥ cholCol C)) ⬝ᵥ
            (-cholCol C) = ((C.submatrix Fin.castSucc Fin.castSucc)⁻¹ *ᵥ
              cholCol C) ⬝ᵥ cholCol C := by
        rw [Matrix.neg_dotProduct, Matrix.dotProduct_neg, neg_neg]
      have hcross : (-((C.submatrix Fin.castSucc Fin.castSucc)⁻¹ *ᵥ cholCol C)) ⬝ᵥ
            cholCol C = -(((C.submatrix Fin.castSucc Fin.castSucc)⁻¹ *ᵥ
              cholCol C) ⬝ᵥ cholCol C) := Matrix.neg_dotProduct _ _
      rw [hexp, hcross] at hq
      linarith
    have hpivot : 0 < cholPivot U₀ C := by
      unfold cholPivot
      rw [hw]
      exact hq'
    simp only [cholMatrix, hrec]
    rw [if_pos hpivot]
    rfl

/-- Modelled from the spec (§4.1): the external Cholesky primitive reports
status zero exactly on positive-definite input. -/
theorem cholMatrix_isSome_iff {n : ℕ} {C : Matrix (Fin n) (Fin n) ℝ}
    (hsym : Cᵀ = C) : (cholMatrix n C).isSome ↔ C.PosDef := by
  constructor
  · intro h
    obtain ⟨U, hU⟩ := Option.isSome_iff_exists.mp h
    exact posDef_of_cholMatrix_some hsym hU
  · exact cholMatrix_isSome_of_posDef

/-! ## Packed storage (spec §6, `src/likely/FunctionMinimum.cc:150`)

`PackedCovariance` is a `std::vector<double>` holding the upper triangle of
a symmetric matrix column-major: element `(i,j)` with `i ≤ j` at offset
`i + j*(j+1)/2`. -/

/-- The symmetric matrix represented by a packed row of doubles, mirroring
the index convention of `printToStream` (`src/likely/FunctionMinimum.cc:150`):
`index = (i <= j) ? i + j*(j+1)/2 : j + i*(i+1)/2`. -/
def unpack (n : ℕ) (ap : List ℝ) : Matrix (Fin n) (Fin n) ℝ :=
  Matrix.of fun i j =>
    if (i : ℕ) ≤ (j : ℕ) then ap.getD ((i : ℕ) + triSize (j : ℕ)) 0
    else ap.getD ((j : ℕ) + triSize (i : ℕ)) 0

theorem unpack_apply (n : ℕ) (ap : List ℝ) (i j : Fin n) :
    unpack n ap i j =
      if (i : ℕ) ≤ (j : ℕ) then ap.getD ((i : ℕ) + triSize (j : ℕ)) 0
      else ap.getD ((j : ℕ) + triSize (i : ℕ)) 0 := rfl

/-- A packed row always denotes a symmetric matrix. -/
theorem unpack_transpose (n : ℕ) (ap : List ℝ) :
    (unpack n ap)ᵀ = unpack n ap := by
  ext i j
  rw [Matrix.transpose_apply, unpack_apply, unpack_apply]
  rcases Nat.le_total (i : ℕ) (j : ℕ) with h | h
  · rcases Nat.lt_or_ge (i : ℕ) (j : ℕ) with h' | h'
    · rw [if_neg (by omega), if_pos h]
    · have : (i : ℕ) = (j : ℕ) := by omega
      rw [this]
  · rcases Nat.lt_or_ge (j : ℕ) (i : ℕ) with h' | h'
    · rw [if_pos h, if_neg (by omega)]
    · have : (i : ℕ) = (j : ℕ) := by omega
      rw [this]

/-- Modelled from the spec: the packed row written back by the external
Cholesky primitive, column-major upper triangle of the factor. -/
noncomputable def pack : (n : ℕ) → Matrix (Fin n) (Fin n) ℝ → List ℝ
  | 0, _ => []
  | n + 1, M =>
    pack n (M.submatrix Fin.castSucc Fin.castSucc) ++
      List.ofFn fun i : Fin (n + 1) => M i (Fin.last n)

theorem pack_length : ∀ (n : ℕ) (M : Matrix (Fin n) (Fin n) ℝ),
    (pack n M).length = triSize n := by
  intro n
  induction n with
  | zero =>
    intro M
    simp [pack, triSize]
  | succ n ih =>
    intro M
    simp [pack, ih, triSize_succ]

theorem pack_getD : ∀ {n : ℕ} (M : Matrix (Fin n) (Fin n) ℝ) {i j : ℕ}
    (hij : i ≤ j) (hj : j < n),
    (pack n M).getD (i + triSize j) 0 = M ⟨i, lt_of_le_of_lt hij hj⟩ ⟨j, hj⟩ := by
  intro n
  induction n with
  | zero =>
    intro M i j hij hj
    exact absurd hj (Nat.not_lt_zero j)
  | succ n ih =>
    intro M i j hij hj
    rcases Nat.lt_or_ge j n with hjn | hjn
    · have hidx : i + triSize j < (pack n (M.submatrix Fin.castSucc Fin.castSucc)).length := by
        rw [pack_length]
        have h1 : i + triSize j < triSize (j + 1) := by rw [triSize_succ]; omega
        exact lt_of_lt_of_le h1 (triSize_mono hjn)
      rw [pack, List.getD_append _ _ _ _ hidx, ih _ hij hjn]
      simp only [Matrix.submatrix_apply]
      congr 1
    · have hjeq : j = n := by omega
      subst hjeq
      have hlen : (pack j (M.submatrix Fin.castSucc Fin.castSucc)).length = triSize j :=
        pack_length j _
      rw [pack, List.getD_append_right _ _ _ _ (by rw [hlen]; omega)]
      rw [hlen]
      have hsub : i + triSize j - triSize j = i := by omega
      rw [hsub]
      have hi : i < j + 1 := by omega
      rw [List.getD_eq_getElem _ _ (by simpa using hi), List.getElem_ofFn]
      congr 1

/-- Packed diagonal entries of a factor produced by `cholMatrix` are the
(positive) diagonal of the factor. -/
theorem pack_diag_pos {n : ℕ} {U : Matrix (Fin n) (Fin n) ℝ}
    (hdiag : ∀ i, 0 < U i i) {i : ℕ} (hi : i < n) :
    0 < (pack n U).getD (i * (i + 3) / 2) 0 := by
  rw [diag_packed_index, pack_getD U (le_refl i) hi]
  exact hdiag _

/-! ## List helpers for the in-place loops of the source. -/

theorem getD_set_self {l : List ℝ} {k : ℕ} (h : k < l.length) (a : ℝ) :
    (l.set k a).getD k 0 = a := by
  rw [List.getD_eq_getElem _ _ (by simpa using h), List.getElem_set]
  exact if_pos rfl

theorem getD_set_ne {l : List ℝ} {m k : ℕ} (h : m ≠ k) (a : ℝ) :
    (l.set m a).getD k 0 = l.getD k 0 := by
  by_cases hk : k < l.length
  · rw [List.getD_eq_getElem _ _ (by simpa using hk),
      List.getD_eq_getElem _ _ hk, List.getElem_set, if_neg h]
  · rw [List.getD_eq_default _ _ (by simpa using Nat.le_of_not_lt hk),
      List.getD_eq_default _ _ (Nat.le_of_not_lt hk)]

theorem getD_replicate_zero (n k : ℕ) : (List.replicate n (0 : ℝ)).getD k 0 = 0 := by
  by_cases hk : k < n
  · rw [List.getD_eq_getElem _ _ (by simpa using hk), List.getElem_replicate]
  · rw [List.getD_eq_default _ _ (by simpa using Nat.le_of_not_lt hk)]

theorem foldl_set_length (g : ℕ → ℕ) (v : ℕ → ℝ) :
    ∀ (ts : List ℕ) (init : List ℝ),
      (ts.foldl (fun acc t => acc.set (g t) (v t)) init).length = init.length := by
  intro ts
  induction ts with
  | nil => intro init; rfl
  | cons t ts ih =>
    intro init
    rw [List.foldl_cons, ih]
    simp

theorem foldl_range_set_getD (g : ℕ → ℕ) (v : ℕ → ℝ) (hg : StrictMono g) :
    ∀ (n : ℕ) (init : List ℝ) {i : ℕ}, i < n → g i < init.length →
      ((List.range n).foldl (fun acc t => acc.set (g t) (v t)) init).getD (g i) 0 =
        v i := by
  intro n
  induction n with
  | zero =>
    intro init i hi _
    exact absurd hi (Nat.not_lt_zero i)
  | succ n ih =>
    intro init i hi hlen
    rw [List.range_succ, List.foldl_append, List.foldl_cons, List.foldl_nil]
    rcases Nat.lt_or_ge i n with h | h
    · rw [getD_set_ne (Ne.symm (ne_of_lt (hg h))) _]
      exact ih init h hlen
    · have hieq : i = n := by omega
      subst hieq
      have hl : g i <
          ((List.range i).foldl (fun acc t => acc.set (g t) (v t)) init).length := by
        rw [foldl_set_length]
        exact hlen
      exact getD_set_self hl _

theorem foldl_range_set_getD_ne (g : ℕ → ℕ) (v : ℕ → ℝ) :
    ∀ (n : ℕ) (init : List ℝ) {k : ℕ}, (∀ i, i < n → g i ≠ k) →
      ((List.range n).foldl (fun acc t => acc.set (g t) (v t)) init).getD k 0 =
        init.getD k 0 := by
  intro n
  induction n with
  | zero =>
    intro init k _
    rfl
  | succ n ih =>
    intro init k hk
    rw [List.range_succ, List.foldl_append, List.foldl_cons, List.foldl_nil]
    rw [getD_set_ne (hk n (Nat.lt_succ_self n)) _]
    exact ih init fun i hi => hk i (Nat.lt_succ_of_lt hi)

/-! ## The diagonal covariance built by the error-only branch
(`src/likely/FunctionMinimum.cc:54-58`). -/

/-- The packed diagonal covariance of squared errors:
`_covar.reset(new PackedCovariance(nCovar,0));` followed by
`(*_covar)[i*(i+3)/2] = error*error;` for `i < nPar`. -/
def diagCovar (nPar : ℕ) (errors : List ℝ) : List ℝ :=
  (List.range nPar).foldl
    (fun acc i => acc.set (i * (i + 3) / 2) (errors.getD i 0 * errors.getD i 0))
    (List.replicate (nPar * (nPar + 1) / 2) 0)

theorem diag_index_strictMono : StrictMono fun i : ℕ => i * (i + 3) / 2 := by
  intro i j hij
  simp only [diag_packed_index]
  have := triSize_mono (Nat.le_of_lt hij)
  omega

theorem diagCovar_length (nPar : ℕ) (errors : List ℝ) :
    (diagCovar nPar errors).length = triSize nPar := by
  unfold diagCovar
  rw [foldl_set_length]
  simp [triSize]

theorem diagCovar_getD_diag (nPar : ℕ) (errors : List ℝ) {i : ℕ}
    (hi : i < nPar) :
    (diagCovar nPar errors).getD (i * (i + 3) / 2) 0 =
      errors.getD i 0 * errors.getD i 0 := by
  unfold diagCovar
  exact foldl_range_set_getD _ _ diag_index_strictMono nPar _ hi
    (by rw [List.length_replicate]; exact diag_packed_index_lt_iff.mpr hi)

theorem diagCovar_getD_off (nPar : ℕ) (errors : List ℝ) {k : ℕ}
    (hk : ∀ i, i < nPar → k ≠ i * (i + 3) / 2) :
    (diagCovar nPar errors).getD k 0 = 0 := by
  unfold diagCovar
  rw [foldl_range_set_getD_ne _ _ nPar _ fun i hi => Ne.symm (hk i hi)]
  exact getD_replicate_zero _ _

/-- The error-only branch stores exactly the diagonal matrix of squared
errors. -/
theorem unpack_diagCovar (nPar : ℕ) (errors : List ℝ) :
    unpack nPar (diagCovar nPar errors) =
      Matrix.diagonal fun i : Fin nPar => errors.getD (i : ℕ) 0 * errors.getD (i : ℕ) 0 := by
  ext i j
  rw [unpack_apply]
  rcases Nat.lt_trichotomy (i : ℕ) (j : ℕ) with hij | hij | hij
  · rw [if_pos (Nat.le_of_lt hij)]
    have hne : Matrix.diagonal
        (fun i : Fin nPar => errors.getD (i : ℕ) 0 * errors.getD (i : ℕ) 0) i j = 0 :=
      Matrix.diagonal_apply_ne _ (fun hc => by
        rw [hc] at hij
        exact Nat.lt_irrefl _ hij)
    rw [hne]
    refine diagCovar_getD_off nPar errors fun m hm hc => ?_
    rw [diag_packed_index] at hc
    obtain ⟨h1, h2⟩ := packed_index_inj (Nat.le_of_lt hij) (le_refl m) hc
    omega
  · have hfin : i = j := Fin.ext hij
    subst hfin
    rw [if_pos (le_refl _), ← diag_packed_index,
      diagCovar_getD_diag nPar errors i.isLt, Matrix.diagonal_apply_eq]
  · rw [if_neg (by omega)]
    have hne : Matrix.diagonal
        (fun i : Fin nPar => errors.getD (i : ℕ) 0 * errors.getD (i : ℕ) 0) i j = 0 :=
      Matrix.diagonal_apply_ne _ (fun hc => by
        rw [hc] at hij
        exact Nat.lt_irrefl _ hij)
    rw [hne]
    refine diagCovar_getD_off nPar errors fun m hm hc => ?_
    rw [diag_packed_index] at hc
    obtain ⟨h1, h2⟩ := packed_index_inj (Nat.le_of_lt hij) (le_refl m) hc
    omega

/-! ## `likely::choleskyDecomposition` (`src/likely/FunctionMinimum.cc:86-104`) -/

/-- Modelled from the spec (§7): the `likely::RuntimeError` exception type,
declared in `likely/RuntimeError.h` (not under `src/`), carrying a message. -/
structure RuntimeError where
  message : String

/-- `likely::choleskyDecomposition`: copies the packed input, recovers the
order `nPar = floor(0.5*sqrt(1+8*nCov))`, throws on non-triangular length,
then runs the external Cholesky primitive; a nonzero status resets the
result pointer (modelled by `none`).  The input is never modified (the
routine works on a copy; the embedding is functional). -/
noncomputable def choleskyDecomposition (covar : List ℝ) :
    Except RuntimeError (Option (List ℝ)) :=
  let nCov := covar.length
  let nPar := Nat.sqrt (1 + 8 * nCov) / 2
  if nCov ≠ nPar * (nPar + 1) / 2 then
    Except.error ⟨"choleskyDecomposition: internal error nCov ~ nPar"⟩
  else
    match cholMatrix nPar (unpack nPar covar) with
    | none => Except.ok none
    | some U => Except.ok (some (pack nPar U))

/-- On a triangular-length input the size check passes and the result is the
outcome of the Cholesky primitive at the recovered order. -/
theorem choleskyDecomposition_triangular {m : ℕ} {covar : List ℝ}
    (hlen : covar.length = triSize m) :
    choleskyDecomposition covar =
      match cholMatrix m (unpack m covar) with
      | none => Except.ok none
      | some U => Except.ok (some (pack m U)) := by
  have hm : Nat.sqrt (1 + 8 * covar.length) / 2 = m := by
    rw [hlen, sqrt_recovers_order]
  subst hm
  simp only [choleskyDecomposition]
  rw [if_neg fun hc => hc hlen]

/-- The internal-consistency error is raised exactly when the input length
is not triangular. -/
theorem choleskyDecomposition_error_iff (covar : List ℝ) :
    (∃ e, choleskyDecomposition covar = Except.error e) ↔
      ¬∃ m, covar.length = triSize m := by
  constructor
  · rintro ⟨e, he⟩ ⟨m, hm⟩
    rw [choleskyDecomposition_triangular hm] at he
    rcases hc : cholMatrix m (unpack m covar) with _ | U <;> rw [hc] at he <;>
      exact Except.noConfusion he
  · intro h
    unfold choleskyDecomposition
    rw [if_pos ?_]
    · exact ⟨_, rfl⟩
    · intro hc
      exact h ⟨_, hc⟩

/-! ## FunctionMinimum (`src/likely/FunctionMinimum.cc`)

The class owns a scalar minimum value, the best-fit point `_where`, and an
optional packed covariance with its optional Cholesky factor.  The shared
`Random` instance is modelled as the stream argument of
`setRandomParameters`. -/

structure FunctionMinimum where
  _minValue : ℝ
  _where : List ℝ
  _covar : Option (List ℝ)
  _cholesky : Option (List ℝ)

/-- Outcome of a C++ member function call: an exception (carrying the state
of the object at the throw point), an executed `return` statement, or
control falling off the end of a non-void function, whose return value is
then indeterminate. -/
inductive CxxOutcome where
  | threw (e : RuntimeError) (st : FunctionMinimum)
  | returned (b : Bool) (st : FunctionMinimum)
  | fellOff (st : FunctionMinimum)

/-- The object state after the call, whatever the control flow was. -/
def CxxOutcome.state : CxxOutcome → FunctionMinimum
  | .threw _ st => st
  | .returned _ st => st
  | .fellOff st => st

/-- Modelled from the spec: `haveCovariance()`, declared inline in the
header `likely/FunctionMinimum.h` (not under `src/`); per spec §3 the
covariance is optional and `haveCovariance()` reports its presence. -/
def FunctionMinimum.haveCovariance (fm : FunctionMinimum) : Bool :=
  fm._covar.isSome

/-- The two-argument constructor (`src/likely/FunctionMinimum.cc:22-25`):
no covariance is stored. -/
def FunctionMinimum.init (minValue : ℝ) (whereP : List ℝ) : FunctionMinimum :=
  ⟨minValue, whereP, none, none⟩

/-- `FunctionMinimum::updateParameters` (`src/likely/FunctionMinimum.cc:38-41`). -/
def FunctionMinimum.updateParameters (fm : FunctionMinimum) (params : List ℝ)
    (fval : ℝ) : FunctionMinimum :=
  { fm with _minValue := fval, _where := params }

/-- `FunctionMinimum::updateCovariance` (`src/likely/FunctionMinimum.cc:43-71`).
Note that neither success path executes a `return` statement: the C++
function is non-void, so on success control falls off the end and the
returned value is indeterminate (modelled by `CxxOutcome.fellOff`). -/
noncomputable def FunctionMinimum.updateCovariance (fm : FunctionMinimum)
    (covar : List ℝ) (errorsOnly : Bool) : CxxOutcome :=
  let nPar := fm._where.length
  let nCovar := nPar * (nPar + 1) / 2
  if errorsOnly then
    if covar.length ≠ nPar then
      .threw ⟨"FunctionMinimum: parameter and error vectors have incompatible sizes."⟩ fm
    else if covar.any fun e => decide (e ≤ 0) then
      .returned false fm
    else
      match choleskyDecomposition (diagCovar nPar covar) with
      | .error e => .threw e { fm with _covar := some (diagCovar nPar covar) }
      | .ok chol => .fellOff
          { fm with _covar := some (diagCovar nPar covar), _cholesky := chol }
  else
    if covar.length ≠ nCovar then
      .threw ⟨"FunctionMinimum: parameter and covariance vectors have incompatible sizes."⟩ fm
    else
      match choleskyDecomposition covar with
      | .error e => .threw e fm
      | .ok none => .returned false fm
      | .ok (some chol) => .fellOff
          { fm with _covar := some covar, _cholesky := some chol }

/-- The four-argument constructor (`src/likely/FunctionMinimum.cc:27-34`):
`if(!updateCovariance(covar,errorsOnly)) throw`.  When `updateCovariance`
returns `false` the constructor throws; when control fell off the end of
`updateCovariance` the tested `bool` is indeterminate, but the object state
is the same whether or not the constructor then throws, so the built state
is reported. -/
noncomputable def FunctionMinimum.initWithCovariance (minValue : ℝ)
    (whereP covar : List ℝ) (errorsOnly : Bool) : CxxOutcome :=
  match (FunctionMinimum.init minValue whereP).updateCovariance covar errorsOnly with
  | .threw e st => .threw e st
  | .returned _ st =>
      .threw ⟨"FunctionMinimum: covariance is not positive definite."⟩ st
  | .fellOff st => .fellOff st

/-- `FunctionMinimum::getErrors` (`src/likely/FunctionMinimum.cc:73-84`). -/
noncomputable def FunctionMinimum.getErrors (fm : FunctionMinimum) :
    Except RuntimeError (List ℝ) :=
  match fm._covar with
  | none => .error ⟨"FunctionMinimum::getErrors: no covariance matrix available."⟩
  | some covar =>
    .ok ((List.range fm._where.length).map fun i =>
      if covar.getD (i * (i + 3) / 2) 0 > 0 then
        Real.sqrt (covar.getD (i * (i + 3) / 2) 0)
      else 0)

/-- The factor-multiplication loop of `setRandomParameters`
(`src/likely/FunctionMinimum.cc:122-128`): one forward pass over the packed
factor via the iterator `next`, modelled by the running position counter:
`for j: for i <= j: params[j] += (*next++) * gauss[i]`. -/
noncomputable def cholLoop (chol gauss : List ℝ) (nPar : ℕ)
    (params : List ℝ) : List ℝ × ℕ :=
  (List.range nPar).foldl (fun acc j =>
    (List.range (j + 1)).foldl (fun acc2 i =>
      (acc2.1.set j (acc2.1.getD j 0 + chol.getD acc2.2 0 * gauss.getD i 0),
        acc2.2 + 1)) acc)
    (params, 0)

/-- `FunctionMinimum::setRandomParameters` (`src/likely/FunctionMinimum.cc:106-130`).
The shared `Random` source is modelled by the stream `random`: the `i`-th
`getNormal()` call of this invocation returns `random i`.  The result is the
caller's buffer after the in-place update, the returned weight, and the
number of normal deviates consumed.  The source dereferences `_cholesky`
after checking only `_covar`; a state with a covariance but no factor would
be undefined behaviour in C++ (it cannot arise under the class invariant),
modelled here by the `Option.getD` default. -/
noncomputable def FunctionMinimum.setRandomParameters (fm : FunctionMinimum)
    (params : List ℝ) (random : ℕ → ℝ) :
    Except RuntimeError (List ℝ × ℝ × ℕ) :=
  match fm._covar with
  | none => .error ⟨"FunctionMinimum::getRandomParameters: no covariance matrix available."⟩
  | some _ =>
    let nPar := fm._where.length
    let gauss : List ℝ := (List.range nPar).map random
    let nlWeight : ℝ := (gauss.map fun r => r * r).sum
    let params1 : List ℝ :=
      (List.range nPar).foldl (fun p i => p.set i (fm._where.getD i 0)) params
    let params2 : List ℝ × ℕ := cholLoop (fm._cholesky.getD []) gauss nPar params1
    .ok (params2.1, nlWeight / 2, nPar)

/-- Claim C9: `updateParameters(params, fval)` replaces `where` with
`params` and `minValue` with `fval` and leaves the stored covariance and
Cholesky factor (present or absent) exactly as they were. -/
theorem updateParameters_frame (fm : FunctionMinimum) (params : List ℝ)
    (fval : ℝ) :
    (fm.updateParameters params fval)._where = params ∧
      (fm.updateParameters params fval)._minValue = fval ∧
      (fm.updateParameters params fval)._covar = fm._covar ∧
      (fm.updateParameters params fval)._cholesky = fm._cholesky ∧
      (fm.updateParameters params fval).haveCovariance = fm.haveCovariance :=
  ⟨rfl, rfl, rfl, rfl, rfl⟩

/-! ## Loop characterizations for `setRandomParameters`. -/

theorem set_getD_self_eq (p : List ℝ) (j : ℕ) : p.set j (p.getD j 0) = p := by
  by_cases h : j < p.length
  · apply List.ext_getElem (by simp)
    intro k h1 h2
    rw [List.getElem_set]
    split
    · next heq =>
      subst heq
      exact List.getD_eq_getElem p 0 h2
    · rfl
  · exact List.set_eq_of_length_le (Nat.le_of_not_lt h)

theorem getD_map_range (f : ℕ → ℝ) {n i : ℕ} (h : i < n) :
    ((List.range n).map f).getD i 0 = f i := by
  rw [List.getD_eq_getElem _ _ (by simpa using h)]
  simp

theorem map_range_sum (f : ℕ → ℝ) (n : ℕ) :
    ((List.range n).map f).sum = ∑ i ∈ Finset.range n, f i := by
  induction n with
  | zero => simp
  | succ n ih =>
    rw [List.range_succ, List.map_append, List.sum_append,
      Finset.sum_range_succ, ih]
    simp

theorem foldl_range_succ {A : Type} (F : A → ℕ → A) (init : A) (n : ℕ) :
    (List.range (n + 1)).foldl F init = F ((List.range n).foldl F init) n := by
  rw [List.range_succ, List.foldl_append, List.foldl_cons, List.foldl_nil]

/-- One inner pass of the factor loop: column `j` of the packed factor is
consumed sequentially from position `pos` and accumulated into slot `j`. -/
theorem cholLoop_inner (chol gauss : List ℝ) (j : ℕ) :
    ∀ (m : ℕ) (p : List ℝ) (pos : ℕ),
      (List.range m).foldl (fun acc2 i =>
        (acc2.1.set j (acc2.1.getD j 0 + chol.getD acc2.2 0 * gauss.getD i 0),
          acc2.2 + 1)) (p, pos) =
      (p.set j (p.getD j 0 +
          ∑ i ∈ Finset.range m, chol.getD (pos + i) 0 * gauss.getD i 0),
        pos + m) := by
  intro m
  induction m with
  | zero =>
    intro p pos
    simp only [List.range_zero, List.foldl_nil, Finset.range_zero,
      Finset.sum_empty, add_zero, Nat.add_zero]
    rw [set_getD_self_eq]
  | succ m ih =>
    intro p pos
    rw [List.range_succ, List.foldl_append, List.foldl_cons, List.foldl_nil,
      ih p pos]
    by_cases hj : j < p.length
    · rw [getD_set_self hj, List.set_set]
      refine congrArg₂ Prod.mk ?_ (by omega)
      refine congrArg (p.set j) ?_
      rw [Finset.sum_range_succ]
      ring
    · have hsetp : ∀ a : ℝ, p.set j a = p := fun a =>
        List.set_eq_of_length_le (Nat.le_of_not_lt hj)
    
      rw [hsetp, hsetp, hsetp]
      exact congrArg₂ Prod.mk rfl (by omega)

/-- The outer factor loop visits the packed factor in one forward pass:
after the call, `params[j] = old[j] + Σ_{i ≤ j} chol[j*(j+1)/2 + i] * gauss[i]`
for `j < nPar`, all other slots untouched, and exactly `triSize nPar`
factor entries were read. -/
theorem cholLoop_spec (chol gauss : List ℝ) :
    ∀ (n : ℕ) (params : List ℝ),
      (cholLoop chol gauss n params).2 = triSize n ∧
      (cholLoop chol gauss n params).1.length = params.length ∧
      (∀ j, n ≤ j →
        (cholLoop chol gauss n params).1.getD j 0 = params.getD j 0) ∧
      (∀ j, j < n → j < params.length →
        (cholLoop chol gauss n params).1.getD j 0 = params.getD j 0 +
          ∑ i ∈ Finset.range (j + 1),
            chol.getD (triSize j + i) 0 * gauss.getD i 0) := by
  intro n
  induction n with
  | zero =>
    intro params
    refine ⟨rfl, rfl, fun j _ => rfl, fun j hj _ => absurd hj (Nat.not_lt_zero j)⟩
  | succ n ih =>
    intro params
    obtain ⟨ihpos, ihlen, ihge, ihlt⟩ := ih params
    have hsplit : cholLoop chol gauss (n + 1) params =
        (List.range (n + 1)).foldl (fun acc2 i =>
          (acc2.1.set n (acc2.1.getD n 0 + chol.getD acc2.2 0 * gauss.getD i 0),
            acc2.2 + 1))
          ((cholLoop chol gauss n params).1, (cholLoop chol gauss n params).2) :=
      foldl_range_succ _ (params, 0) n
    rw [ihpos, cholLoop_inner chol gauss n (n + 1)
      (cholLoop chol gauss n params).1 (triSize n)] at hsplit
    have h1 : (cholLoop chol gauss (n + 1) params).1 =
        (cholLoop chol gauss n params).1.set n
          ((cholLoop chol gauss n params).1.getD n 0 +
            ∑ i ∈ Finset.range (n + 1),
              chol.getD (triSize n + i) 0 * gauss.getD i 0) := by
      rw [hsplit]
    have h2 : (cholLoop chol gauss (n + 1) params).2 = triSize n + (n + 1) := by
      rw [hsplit]
    refine ⟨?_, ?_, ?_, ?_⟩
    · rw [h2, triSize_succ]
    · rw [h1]
      simp [ihlen]
    · intro j hj
      rw [h1, getD_set_ne (by omega) _]
      exact ihge j (by omega)
    · intro j hj hjp
      rcases Nat.lt_or_ge j n with hlt | hge
      · rw [h1, getD_set_ne (by omega) _]
        exact ihlt j hlt hjp
      · have hjeq : j = n := by omega
        subst hjeq
        have hjl : j < (cholLoop chol gauss j params).1.length := by
          rw [ihlen]
          exact hjp
        rw [h1, getD_set_self hjl, ihge j (le_refl j)]

/-- Diagonal entries of a positive-definite real matrix are positive. -/
theorem posDef_diag_pos {n : ℕ} {M : Matrix (Fin n) (Fin n) ℝ}
    (hM : M.PosDef) (i : Fin n) : 0 < M i i := by
  have hx : (Pi.single i 1 : Fin n → ℝ) ≠ 0 := by
    intro h0
    have := congrFun h0 i
    simp [Pi.single_eq_same] at this
  have h := hM.2 (Pi.single i 1) hx
  have hs : star (Pi.single i 1 : Fin n → ℝ) = Pi.single i 1 := by
    funext k
    simp
  rw [hs] at h
  have hmv : M *ᵥ (Pi.single i 1 : Fin n → ℝ) = fun j => M j i := by
    funext j
    rw [Matrix.mulVec_single]
    exact mul_one _
  rw [hmv] at h
  have hdp : (Pi.single i 1 : Fin n → ℝ) ⬝ᵥ (fun j => M j i) = M i i := by
    simp [Matrix.dotProduct, Pi.single_apply]
  rwa [hdp] at h

/-- Full characterization of `setRandomParameters` when a covariance and its
factor are present and the caller's buffer is long enough: the call
succeeds, consumes exactly `n = |where|` normals `random 0, ..., random (n-1)`
in index order, returns half the sum of their squares, overwrites
`dst[j] = where[j] + Σ_{i ≤ j} chol[j*(j+1)/2 + i] * random[i]` for `j < n`,
and leaves the remaining slots of the buffer untouched. -/
theorem setRandomParameters_spec (fm : FunctionMinimum) (cv U params : List ℝ)
    (random : ℕ → ℝ) (hcv : fm._covar = some cv) (hch : fm._cholesky = some U)
    (hlen : fm._where.length ≤ params.length) :
    ∃ res : List ℝ,
      fm.setRandomParameters params random =
        .ok (res,
          (∑ i ∈ Finset.range fm._where.length, random i * random i) / 2,
          fm._where.length) ∧
      res.length = params.length ∧
      (∀ j, j < fm._where.length →
        res.getD j 0 = fm._where.getD j 0 +
          ∑ i ∈ Finset.range (j + 1),
            U.getD (j * (j + 1) / 2 + i) 0 * random i) ∧
      (∀ j, fm._where.length ≤ j → res.getD j 0 = params.getD j 0) := by
  have hcall : fm.setRandomParameters params random =
      .ok ((cholLoop U ((List.range fm._where.length).map random)
          fm._where.length
          ((List.range fm._where.length).foldl
            (fun p i => p.set i (fm._where.getD i 0)) params)).1,
        (((List.range fm._where.length).map random).map fun r => r * r).sum / 2,
        fm._where.length) := by
    simp only [FunctionMinimum.setRandomParameters, hcv, hch, Option.getD_some]
  have hw : (((List.range fm._where.length).map random).map fun r => r * r).sum =
      ∑ i ∈ Finset.range fm._where.length, random i * random i := by
    rw [List.map_map, map_range_sum]
    exact Finset.sum_congr rfl fun i _ => rfl
  have hp1len : ((List.range fm._where.length).foldl
      (fun p i => p.set i (fm._where.getD i 0)) params).length = params.length :=
    foldl_set_length (fun t => t) (fun t => fm._where.getD t 0)
      (List.range fm._where.length) params
  have hp1lt : ∀ j, j < fm._where.length → j < params.length →
      ((List.range fm._where.length).foldl
        (fun p i => p.set i (fm._where.getD i 0)) params).getD j 0 =
      fm._where.getD j 0 := fun j hj hjp =>
    foldl_range_set_getD (fun t => t) (fun t => fm._where.getD t 0)
      strictMono_id fm._where.length params hj hjp
  have hp1ge : ∀ j, fm._where.length ≤ j →
      ((List.range fm._where.length).foldl
        (fun p i => p.set i (fm._where.getD i 0)) params).getD j 0 =
      params.getD j 0 := fun j hj =>
    foldl_range_set_getD_ne (fun t => t) (fun t => fm._where.getD t 0)
      fm._where.length params fun i hi => by
        show i ≠ j
        omega
  obtain ⟨hc2, hclen, hcge, hclt⟩ := cholLoop_spec U
    ((List.range fm._where.length).map random) fm._where.length
    ((List.range fm._where.length).foldl
      (fun p i => p.set i (fm._where.getD i 0)) params)
  refine ⟨_, by rw [hcall, hw], by rw [hclen, hp1len], ?_, ?_⟩
  · intro j hj
    rw [hclt j hj (by rw [hp1len]; omega), hp1lt j hj (by omega)]
    have hsum : ∑ i ∈ Finset.range (j + 1),
        U.getD (triSize j + i) 0 *
          ((List.range fm._where.length).map random).getD i 0 =
        ∑ i ∈ Finset.range (j + 1), U.getD (j * (j + 1) / 2 + i) 0 * random i := by
      refine Finset.sum_congr rfl fun i hi => ?_
      have hi' : i < fm._where.length := by
        have := Finset.mem_range.mp hi
        omega
      rw [getD_map_range random hi']
      rfl
    rw [hsum]
  · intro j hj
    rw [hcge j hj, hp1ge j hj]

/-- Claim C4: whenever a covariance (with its Cholesky factor) is present,
`setRandomParameters(dst)` sets
`dst[j] = where[j] + Σ_{i=0..j} U[i,j]·g[i]` for `j < n`, where
`g i = random i` are the `n` standard normals drawn from the Random source
and `U[i,j]` is the packed upper factor entry at offset `i + j*(j+1)/2`,
read in one forward pass of its storage order, and the call returns
`½·Σ g[i]²`. -/
theorem setRandomParameters_formula (fm : FunctionMinimum)
    (cv U params : List ℝ) (random : ℕ → ℝ)
    (hcv : fm._covar = some cv) (hch : fm._cholesky = some U)
    (hlen : fm._where.length ≤ params.length) :
    ∃ res : List ℝ,
      fm.setRandomParameters params random =
        .ok (res,
          (∑ i ∈ Finset.range fm._where.length, random i * random i) / 2,
          fm._where.length) ∧
      ∀ j, j < fm._where.length →
        res.getD j 0 = fm._where.getD j 0 +
          ∑ i ∈ Finset.range (j + 1),
            U.getD (j * (j + 1) / 2 + i) 0 * random i := by
  obtain ⟨res, hcall, _, hlt, _⟩ :=
    setRandomParameters_spec fm cv U params random hcv hch hlen
  exact ⟨res, hcall, hlt⟩

/-- Witness for C4 at the spec's scenario E: `where = [10,20]`,
covariance `[4,0,9]` with factor `[2,0,3]`, normals `1, 0`:
`dst = [12, 20]`, weight `1/2`. -/
theorem setRandomParameters_formula_witness :
    ∃ res : List ℝ,
      (FunctionMinimum.mk 0 [10, 20] (some [4, 0, 9])
          (some [2, 0, 3])).setRandomParameters [0, 0]
          (fun i => if i = 0 then (1 : ℝ) else 0) =
        .ok (res, 1 / 2, 2) ∧ res.getD 0 0 = 12 ∧ res.getD 1 0 = 20 := by
  obtain ⟨res, hcall, hform⟩ := setRandomParameters_formula
    (FunctionMinimum.mk 0 [10, 20] (some [4, 0, 9]) (some [2, 0, 3]))
    [4, 0, 9] [2, 0, 3] [0, 0] (fun i => if i = 0 then (1 : ℝ) else 0)
    rfl rfl (by simp)
  refine ⟨res, ?_, ?_, ?_⟩
  · have hwv : (∑ i ∈ Finset.range
        ((FunctionMinimum.mk 0 [10, 20] (some [4, 0, 9])
          (some [2, 0, 3]))._where.length),
        (if i = 0 then (1 : ℝ) else 0) * (if i = 0 then (1 : ℝ) else 0)) = 1 := by
      show (∑ i ∈ Finset.range 2,
        (if i = 0 then (1 : ℝ) else 0) * (if i = 0 then (1 : ℝ) else 0)) = 1
      rw [Finset.sum_range_succ, Finset.sum_range_succ, Finset.sum_range_zero]
      norm_num
    rw [hwv] at hcall
    exact hcall
  · have h0 := hform 0 (by show 0 < 2; omega)
    rw [h0]
    show (10 : ℝ) + ∑ i ∈ Finset.range 1,
      ([2, 0, 3] : List ℝ).getD (0 * (0 + 1) / 2 + i) 0 *
        (if i = 0 then (1 : ℝ) else 0) = 12
    rw [Finset.sum_range_succ, Finset.sum_range_zero]
    norm_num
  · have h1 := hform 1 (by show 1 < 2; omega)
    rw [h1]
    show (20 : ℝ) + ∑ i ∈ Finset.range 2,
      ([2, 0, 3] : List ℝ).getD (1 * (1 + 1) / 2 + i) 0 *
        (if i = 0 then (1 : ℝ) else 0) = 20
    rw [Finset.sum_range_succ, Finset.sum_range_succ, Finset.sum_range_zero]
    norm_num

/-- Claim C10: the output of `setRandomParameters` does not depend on the
prior contents of `dst` (given `|dst| ≥ n`): two calls on the same state
whose Random streams agree on the `n` consumed indices produce identical
`dst[0..n-1]` and identical weights, and each call consumes exactly `n`
normals, in index order. -/
theorem setRandomParameters_prior_independent (fm : FunctionMinimum)
    (cv U params₁ params₂ : List ℝ) (random₁ random₂ : ℕ → ℝ)
    (hcv : fm._covar = some cv) (hch : fm._cholesky = some U)
    (h₁ : fm._where.length ≤ params₁.length)
    (h₂ : fm._where.length ≤ params₂.length)
    (hr : ∀ i, i < fm._where.length → random₁ i = random₂ i) :
    ∃ res₁ res₂ w,
      fm.setRandomParameters params₁ random₁ =
        .ok (res₁, w, fm._where.length) ∧
      fm.setRandomParameters params₂ random₂ =
        .ok (res₂, w, fm._where.length) ∧
      ∀ j, j < fm._where.length → res₁.getD j 0 = res₂.getD j 0 := by
  obtain ⟨res₁, hcall₁, _, hlt₁, _⟩ :=
    setRandomParameters_spec fm cv U params₁ random₁ hcv hch h₁
  obtain ⟨res₂, hcall₂, _, hlt₂, _⟩ :=
    setRandomParameters_spec fm cv U params₂ random₂ hcv hch h₂
  have hwsum : (∑ i ∈ Finset.range fm._where.length, random₂ i * random₂ i) =
      ∑ i ∈ Finset.range fm._where.length, random₁ i * random₁ i := by
    refine Finset.sum_congr rfl fun i hi => ?_
    rw [hr i (Finset.mem_range.mp hi)]
  rw [hwsum] at hcall₂
  refine ⟨res₁, res₂,
    (∑ i ∈ Finset.range fm._where.length, random₁ i * random₁ i) / 2,
    hcall₁, hcall₂, ?_⟩
  intro j hj
  rw [hlt₁ j hj, hlt₂ j hj]
  congr 1
  refine Finset.sum_congr rfl fun i hi => ?_
  have hi' : i < fm._where.length := by
    have := Finset.mem_range.mp hi
    omega
  rw [hr i hi']

/-- Witness for C10: the same state and stream with two different prior
buffers `[0,0]` and `[5,6,7]`. -/
theorem setRandomParameters_prior_independent_witness :
    ∃ res₁ res₂ w,
      (FunctionMinimum.mk 0 [10, 20] (some [4, 0, 9])
          (some [2, 0, 3])).setRandomParameters [0, 0]
          (fun i => if i = 0 then (1 : ℝ) else 0) = .ok (res₁, w, 2) ∧
      (FunctionMinimum.mk 0 [10, 20] (some [4, 0, 9])
          (some [2, 0, 3])).setRandomParameters [5, 6, 7]
          (fun i => if i = 0 then (1 : ℝ) else 0) = .ok (res₂, w, 2) ∧
      ∀ j, j < 2 → res₁.getD j 0 = res₂.getD j 0 := by
  exact setRandomParameters_prior_independent
    (FunctionMinimum.mk 0 [10, 20] (some [4, 0, 9]) (some [2, 0, 3]))
    [4, 0, 9] [2, 0, 3] [0, 0] [5, 6, 7]
    (fun i => if i = 0 then (1 : ℝ) else 0)
    (fun i => if i = 0 then (1 : ℝ) else 0)
    rfl rfl (by simp) (by simp) (fun i _ => rfl)

/-! ## Path characterizations of `updateCovariance`. -/

/-- Full-matrix shape, wrong length: throws before any mutation. -/
theorem updateCovariance_full_badlen (fm : FunctionMinimum) (covar : List ℝ)
    (hlen : covar.length ≠ triSize fm._where.length) :
    fm.updateCovariance covar false =
      .threw ⟨"FunctionMinimum: parameter and covariance vectors have incompatible sizes."⟩ fm := by
  simp only [FunctionMinimum.updateCovariance, Bool.false_eq_true, if_false]
  rw [if_pos (show covar.length ≠
    fm._where.length * (fm._where.length + 1) / 2 from hlen)]

/-- Full-matrix shape, positive-definite input: the covariance and its
factor are stored and control falls off the end of the function. -/
theorem updateCovariance_full_posDef (fm : FunctionMinimum) (covar : List ℝ)
    (hlen : covar.length = triSize fm._where.length)
    (hpd : (unpack fm._where.length covar).PosDef) :
    ∃ U, cholMatrix fm._where.length (unpack fm._where.length covar) = some U ∧
      fm.updateCovariance covar false = .fellOff
        { fm with
          _covar := some covar,
          _cholesky := some (pack fm._where.length U) } := by
  obtain ⟨U, hU⟩ := Option.isSome_iff_exists.mp (cholMatrix_isSome_of_posDef hpd)
  refine ⟨U, hU, ?_⟩
  simp only [FunctionMinimum.updateCovariance, Bool.false_eq_true, if_false]
  rw [if_neg (by rw [hlen]; exact fun hc => hc rfl),
    choleskyDecomposition_triangular hlen, hU]

/-- Full-matrix shape, non-positive-definite input: `return false` with no
mutation whatsoever. -/
theorem updateCovariance_full_notPosDef (fm : FunctionMinimum) (covar : List ℝ)
    (hlen : covar.length = triSize fm._where.length)
    (hnpd : ¬(unpack fm._where.length covar).PosDef) :
    fm.updateCovariance covar false = .returned false fm := by
  have hnone : cholMatrix fm._where.length (unpack fm._where.length covar) = none := by
    rcases hc : cholMatrix fm._where.length (unpack fm._where.length covar) with _ | U
    · rfl
    · exact absurd (posDef_of_cholMatrix_some (unpack_transpose _ _) hc) hnpd
  simp only [FunctionMinimum.updateCovariance, Bool.false_eq_true, if_false]
  rw [if_neg (by rw [hlen]; exact fun hc => hc rfl),
    choleskyDecomposition_triangular hlen, hnone]

/-- Error-only shape, wrong length: throws before any mutation. -/
theorem updateCovariance_errors_badlen (fm : FunctionMinimum) (covar : List ℝ)
    (hlen : covar.length ≠ fm._where.length) :
    fm.updateCovariance covar true =
      .threw ⟨"FunctionMinimum: parameter and error vectors have incompatible sizes."⟩ fm := by
  simp only [FunctionMinimum.updateCovariance, if_true]
  rw [if_pos hlen]

/-- Error-only shape with some error `≤ 0`: `return false` with no
mutation. -/
theorem updateCovariance_errors_nonpos (fm : FunctionMinimum) (covar : List ℝ)
    (hlen : covar.length = fm._where.length) {e : ℝ} (he : e ∈ covar)
    (he0 : e ≤ 0) :
    fm.updateCovariance covar true = .returned false fm := by
  simp only [FunctionMinimum.updateCovariance, if_true]
  rw [if_neg (fun hc => hc hlen)]
  rw [if_pos ?_]
  rw [List.any_eq_true]
  exact ⟨e, he, by simpa using he0⟩

/-- Error-only shape with all errors positive: the diagonal covariance of
squared errors and its factor are stored and control falls off the end. -/
theorem updateCovariance_errors_pos (fm : FunctionMinimum) (covar : List ℝ)
    (hlen : covar.length = fm._where.length)
    (hpos : ∀ e ∈ covar, 0 < e) :
    ∃ U, cholMatrix fm._where.length
        (unpack fm._where.length (diagCovar fm._where.length covar)) = some U ∧
      fm.updateCovariance covar true = .fellOff
        { fm with
          _covar := some (diagCovar fm._where.length covar),
          _cholesky := some (pack fm._where.length U) } := by
  have hdiagpd : (unpack fm._where.length
      (diagCovar fm._where.length covar)).PosDef := by
    rw [unpack_diagCovar]
    refine Matrix.PosDef.diagonal fun i => ?_
    have hmem : covar.getD (i : ℕ) 0 ∈ covar := by
      rw [List.getD_eq_getElem _ _ (by rw [hlen]; exact i.isLt)]
      exact List.getElem_mem _
    exact mul_pos (hpos _ hmem) (hpos _ hmem)
  obtain ⟨U, hU⟩ := Option.isSome_iff_exists.mp
    (cholMatrix_isSome_of_posDef hdiagpd)
  refine ⟨U, hU, ?_⟩
  have hany : (covar.any fun e => decide (e ≤ 0)) = false := by
    rw [List.any_eq_false]
    intro e he
    simpa using not_le.mpr (hpos e he)
  simp only [FunctionMinimum.updateCovariance, if_true]
  rw [if_neg (fun hc => hc hlen),
    if_neg (by rw [hany]; exact Bool.false_ne_true)]
  rw [choleskyDecomposition_triangular (diagCovar_length fm._where.length covar),
    hU]

/-- Claim C1, settled as a code defect: for every symmetric positive-definite
packed covariance of the correct length `n*(n+1)/2`, `updateCovariance(C,
false)` performs the update (covariance and factor stored) and afterwards
`getErrors()[i] = sqrt(C[i,i])` — but the call does NOT return `true`:
control falls off the end of the non-void function without executing any
`return` statement, so the returned value is indeterminate
(`src/likely/FunctionMinimum.cc:62-71` has no `return` on this path). -/
theorem updateCovariance_posDef_no_return (fm : FunctionMinimum)
    (covar : List ℝ) (hlen : covar.length = triSize fm._where.length)
    (hpd : (unpack fm._where.length covar).PosDef) :
    ∃ st, fm.updateCovariance covar false = .fellOff st ∧
      st._covar = some covar ∧ st._cholesky.isSome ∧
      st.getErrors = .ok ((List.range fm._where.length).map fun i =>
        Real.sqrt (covar.getD (i * (i + 3) / 2) 0)) := by
  obtain ⟨U, hU, hout⟩ := updateCovariance_full_posDef fm covar hlen hpd
  refine ⟨_, hout, rfl, rfl, ?_⟩
  show Except.ok ((List.range fm._where.length).map fun i =>
      if covar.getD (i * (i + 3) / 2) 0 > 0 then
        Real.sqrt (covar.getD (i * (i + 3) / 2) 0)
      else 0) = _
  refine congrArg Except.ok (List.map_congr_left fun i hi => ?_)
  have hin : i < fm._where.length := List.mem_range.mp hi
  have hdiag : covar.getD (i * (i + 3) / 2) 0 =
      unpack fm._where.length covar ⟨i, hin⟩ ⟨i, hin⟩ := by
    rw [unpack_apply, if_pos (le_refl _), diag_packed_index]
  rw [if_pos (by rw [hdiag]; exact posDef_diag_pos hpd _)]

/-- Witness for C1's failing input: `where = [0]`, `C = [1]` (positive
definite): the update is performed and `getErrors() = [1]`, but control
falls off the end instead of returning `true`. -/
theorem updateCovariance_posDef_no_return_witness :
    ∃ st, (FunctionMinimum.init 0 [0]).updateCovariance [1] false =
        .fellOff st ∧
      st._covar = some [1] ∧ st._cholesky.isSome ∧
      st.getErrors = .ok [1] := by
  have hpd : (unpack 1 [(1 : ℝ)]).PosDef := by
    constructor
    · exact isHermitian_of_transpose (unpack_transpose 1 [1])
    · intro x hx
      have hx0 : x 0 ≠ 0 := by
        intro h0
        apply hx
        funext k
        have hk : k = 0 := Subsingleton.elim k 0
        rw [hk]
        exact h0
      have hstar : star x = x := by
        funext k
        simp
      rw [hstar]
      have hq : x ⬝ᵥ (unpack 1 [(1 : ℝ)] *ᵥ x) = x 0 * x 0 := by
        simp [Matrix.dotProduct, Matrix.mulVec, Fin.sum_univ_one, unpack_apply,
          triSize]
      rw [hq]
      exact mul_self_pos.mpr hx0
  obtain ⟨st, h1, h2, h3, h4⟩ := updateCovariance_posDef_no_return
    (FunctionMinimum.init 0 [0]) [1] rfl hpd
  refine ⟨st, h1, h2, h3, ?_⟩
  have hlist : ((List.range (FunctionMinimum.init 0 [0])._where.length).map
      fun i => Real.sqrt (([(1 : ℝ)]).getD (i * (i + 3) / 2) 0)) = [1] := by
    show [Real.sqrt (([(1 : ℝ)]).getD 0 0)] = [1]
    rw [show ([(1 : ℝ)]).getD 0 0 = 1 from rfl, Real.sqrt_one]
  rw [hlist] at h4
  exact h4

/-- Claim C2: for every non-positive-definite symmetric packed matrix of
the correct length, `updateCovariance(C, false)` returns `false` and
mutates nothing: the state after the call — `haveCovariance()`, the stored
covariance, the Cholesky factor, `where` and `minValue` — is exactly the
state before it (all validation precedes any mutation). -/
theorem updateCovariance_not_posDef_no_mutation (fm : FunctionMinimum)
    (covar : List ℝ) (hlen : covar.length = triSize fm._where.length)
    (hnpd : ¬(unpack fm._where.length covar).PosDef) :
    fm.updateCovariance covar false = .returned false fm ∧
      (fm.updateCovariance covar false).state.haveCovariance =
        fm.haveCovariance ∧
      (fm.updateCovariance covar false).state._covar = fm._covar ∧
      (fm.updateCovariance covar false).state._cholesky = fm._cholesky ∧
      (fm.updateCovariance covar false).state._where = fm._where ∧
      (fm.updateCovariance covar false).state._minValue = fm._minValue := by
  have h := updateCovariance_full_notPosDef fm covar hlen hnpd
  rw [h]
  exact ⟨rfl, rfl, rfl, rfl, rfl, rfl⟩

/-- Witness for C2 at the spec's scenario C: `where = [0,0]`,
`C = [1,2,1]` (determinant `-3`, not positive definite). -/
theorem updateCovariance_not_posDef_no_mutation_witness :
    (FunctionMinimum.init 0 [0, 0]).updateCovariance [1, 2, 1] false =
      .returned false (FunctionMinimum.init 0 [0, 0]) := by
  have hnpd : ¬(unpack 2 [(1 : ℝ), 2, 1]).PosDef := by
    intro h
    have hx : (![2, -1] : Fin 2 → ℝ) ≠ 0 := by
      intro h0
      have := congrFun h0 0
      norm_num at this
    have hq := h.2 ![2, -1] hx
    have hstar : star (![2, -1] : Fin 2 → ℝ) = ![2, -1] := by
      funext k
      simp
    rw [hstar] at hq
    have hval : (![2, -1] : Fin 2 → ℝ) ⬝ᵥ
        (unpack 2 [(1 : ℝ), 2, 1] *ᵥ ![2, -1]) = -3 := by
      simp [Matrix.dotProduct, Matrix.mulVec, Fin.sum_univ_two, unpack_apply,
        triSize]
      norm_num
    rw [hval] at hq
    norm_num at hq
  exact (updateCovariance_not_posDef_no_mutation
    (FunctionMinimum.init 0 [0, 0]) [1, 2, 1] rfl hnpd).1

/-- Claim C3: for every error vector `e` of length `n = |where|` with every
`e[i] > 0`, `updateCovariance(e, true)` reaches its success path (it neither
throws nor returns `false`; as in C1 the non-void function then falls off
its end), stores the diagonal packed covariance with `e[i]²` at packed
offset `i*(i+3)/2` and zero everywhere else, stores a Cholesky factor, and
a subsequent `getErrors()` returns exactly `e`. -/
theorem updateCovariance_errorsOnly_roundtrip (fm : FunctionMinimum)
    (covar : List ℝ) (hlen : covar.length = fm._where.length)
    (hpos : ∀ e ∈ covar, 0 < e) :
    ∃ st, fm.updateCovariance covar true = .fellOff st ∧
      st._covar = some (diagCovar fm._where.length covar) ∧
      st._cholesky.isSome ∧
      (∀ i, i < fm._where.length →
        (diagCovar fm._where.length covar).getD (i * (i + 3) / 2) 0 =
          covar.getD i 0 * covar.getD i 0) ∧
      (∀ k, (∀ i, i < fm._where.length → k ≠ i * (i + 3) / 2) →
        (diagCovar fm._where.length covar).getD k 0 = 0) ∧
      st.getErrors = .ok covar := by
  obtain ⟨U, hU, hout⟩ := updateCovariance_errors_pos fm covar hlen hpos
  refine ⟨_, hout, rfl, rfl,
    fun i hi => diagCovar_getD_diag fm._where.length covar hi,
    fun k hk => diagCovar_getD_off fm._where.length covar hk, ?_⟩
  show Except.ok ((List.range fm._where.length).map fun i =>
      if (diagCovar fm._where.length covar).getD (i * (i + 3) / 2) 0 > 0 then
        Real.sqrt ((diagCovar fm._where.length covar).getD (i * (i + 3) / 2) 0)
      else 0) = _
  refine congrArg Except.ok ?_
  apply List.ext_getElem
  · simp [hlen]
  · intro k h1 h2
    have hk : k < fm._where.length := by simpa using h1
    have hmem : covar.getD k 0 ∈ covar := by
      rw [List.getD_eq_getElem _ _ (by rw [hlen]; exact hk)]
      exact List.getElem_mem _
    have hpk : 0 < covar.getD k 0 := hpos _ hmem
    have helt : ((List.range fm._where.length).map fun i =>
        if (diagCovar fm._where.length covar).getD (i * (i + 3) / 2) 0 > 0 then
          Real.sqrt ((diagCovar fm._where.length covar).getD (i * (i + 3) / 2) 0)
        else 0)[k] =
        if (diagCovar fm._where.length covar).getD (k * (k + 3) / 2) 0 > 0 then
          Real.sqrt ((diagCovar fm._where.length covar).getD (k * (k + 3) / 2) 0)
        else 0 := by
      rw [List.getElem_map, List.getElem_range]
    rw [helt, diagCovar_getD_diag fm._where.length covar hk,
      if_pos (mul_pos hpk hpk), Real.sqrt_mul_self (le_of_lt hpk)]
    exact List.getD_eq_getElem covar 0 h2

/-- Witness for C3 at the spec's scenario B: `where = [0,0]`, errors
`[2,3]`: the stored packed covariance is `[4,0,9]` and `getErrors()`
returns `[2,3]`. -/
theorem updateCovariance_errorsOnly_roundtrip_witness :
    ∃ st, (FunctionMinimum.init 0 [0, 0]).updateCovariance [2, 3] true =
        .fellOff st ∧
      st._covar = some [4, 0, 9] ∧ st._cholesky.isSome ∧
      st.getErrors = .ok [2, 3] := by
  have hpos : ∀ e ∈ ([2, 3] : List ℝ), 0 < e := by
    intro e he
    rcases List.mem_cons.mp he with h | h
    · rw [h]; norm_num
    · rcases List.mem_cons.mp h with h' | h'
      · rw [h']; norm_num
      · exact absurd h' (List.not_mem_nil e)
  obtain ⟨st, h1, h2, h3, _, _, h6⟩ := updateCovariance_errorsOnly_roundtrip
    (FunctionMinimum.init 0 [0, 0]) [2, 3] rfl hpos
  have hdiag : diagCovar (FunctionMinimum.init 0 [0, 0])._where.length
      ([2, 3] : List ℝ) = [4, 0, 9] := by
    show diagCovar 2 [(2 : ℝ), 3] = [4, 0, 9]
    unfold diagCovar
    show ((List.replicate 3 (0 : ℝ)).set 0
        (([2, 3] : List ℝ).getD 0 0 * ([2, 3] : List ℝ).getD 0 0)).set 2
        (([2, 3] : List ℝ).getD 1 0 * ([2, 3] : List ℝ).getD 1 0) = [4, 0, 9]
    norm_num [List.replicate, List.set]
  rw [hdiag] at h2
  exact ⟨st, h1, h2, h3, h6⟩

/-- The spec's data-model invariant (§3): covariance and Cholesky factor
are both absent or both present, and a present factor has a strictly
positive packed diagonal. -/
def FunctionMinimum.Inv (fm : FunctionMinimum) : Prop :=
  (fm._covar.isSome ↔ fm._cholesky.isSome) ∧
  ∀ ch, fm._cholesky = some ch → ∀ i, i * (i + 3) / 2 < ch.length →
    0 < ch.getD (i * (i + 3) / 2) 0

/-- The packed factor written back by a successful decomposition has a
strictly positive diagonal. -/
theorem pack_cholMatrix_diag_pos {n : ℕ} {M U : Matrix (Fin n) (Fin n) ℝ}
    (hsym : Mᵀ = M) (hU : cholMatrix n M = some U) :
    ∀ i, i * (i + 3) / 2 < (pack n U).length →
      0 < (pack n U).getD (i * (i + 3) / 2) 0 := by
  intro i hi
  rw [pack_length] at hi
  exact pack_diag_pos (cholMatrix_spec hsym hU).2.1 (diag_packed_index_lt_iff.mp hi)

/-- Claim C5: the invariant — stored covariance and Cholesky factor both
absent or both present, and a present factor has strictly positive
diagonal — holds after both constructors and is preserved by
`updateCovariance` (both shapes, every outcome) and `updateParameters`
(`getErrors` and `setRandomParameters` are `const`: they do not modify the
object in the embedding). -/
theorem functionMinimum_invariant :
    (∀ (mv : ℝ) (w : List ℝ), (FunctionMinimum.init mv w).Inv) ∧
    (∀ (fm : FunctionMinimum) (covar : List ℝ) (eo : Bool),
      fm.Inv → ((fm.updateCovariance covar eo).state).Inv) ∧
    (∀ (mv : ℝ) (w covar : List ℝ) (eo : Bool),
      ((FunctionMinimum.initWithCovariance mv w covar eo).state).Inv) ∧
    (∀ (fm : FunctionMinimum) (params : List ℝ) (fval : ℝ),
      fm.Inv → (fm.updateParameters params fval).Inv) := by
  have hinit : ∀ (mv : ℝ) (w : List ℝ), (FunctionMinimum.init mv w).Inv := by
    intro mv w
    constructor
    · simp [FunctionMinimum.init]
    · intro ch hch
      simp [FunctionMinimum.init] at hch
  have hupdate : ∀ (fm : FunctionMinimum) (covar : List ℝ) (eo : Bool),
      fm.Inv → ((fm.updateCovariance covar eo).state).Inv := by
    intro fm covar eo hInv
    cases eo with
    | false =>
      by_cases hl : covar.length = triSize fm._where.length
      · by_cases hpd : (unpack fm._where.length covar).PosDef
        · obtain ⟨U, hU, hout⟩ := updateCovariance_full_posDef fm covar hl hpd
          rw [hout]
          refine ⟨Iff.rfl, ?_⟩
          intro ch hch i hi
          have hch' : pack fm._where.length U = ch := by
            have h' : some (pack fm._where.length U) = some ch := hch
            injection h'
          subst hch'
          exact pack_cholMatrix_diag_pos (unpack_transpose _ _) hU i hi
        · rw [updateCovariance_full_notPosDef fm covar hl hpd]
          exact hInv
      · rw [updateCovariance_full_badlen fm covar hl]
        exact hInv
    | true =>
      by_cases hl : covar.length = fm._where.length
      · by_cases hpos : ∀ e ∈ covar, 0 < e
        · obtain ⟨U, hU, hout⟩ := updateCovariance_errors_pos fm covar hl hpos
          rw [hout]
          refine ⟨Iff.rfl, ?_⟩
          intro ch hch i hi
          have hch' : pack fm._where.length U = ch := by
            have h' : some (pack fm._where.length U) = some ch := hch
            injection h'
          subst hch'
          exact pack_cholMatrix_diag_pos (unpack_transpose _ _) hU i hi
        · push_neg at hpos
          obtain ⟨e, he, he0⟩ := hpos
          rw [updateCovariance_errors_nonpos fm covar hl he he0]
          exact hInv
      · rw [updateCovariance_errors_badlen fm covar hl]
        exact hInv
  refine ⟨hinit, hupdate, ?_, ?_⟩
  · intro mv w covar eo
    have h := hupdate (FunctionMinimum.init mv w) covar eo (hinit mv w)
    unfold FunctionMinimum.initWithCovariance
    rcases hcase : (FunctionMinimum.init mv w).updateCovariance covar eo with
      ⟨e, st⟩ | ⟨b, st⟩ | ⟨st⟩
    · rw [hcase] at h
      simpa [CxxOutcome.state] using h
    · rw [hcase] at h
      simpa [CxxOutcome.state] using h
    · rw [hcase] at h
      simpa [CxxOutcome.state] using h
  · intro fm params fval hInv
    exact hInv

/-- Witness for C5: the invariant after a concrete construction, a
concrete error-only update, and a concrete `updateParameters`. -/
theorem functionMinimum_invariant_witness :
    ((FunctionMinimum.init 0 [0]).updateCovariance [2] true).state.Inv ∧
      ((FunctionMinimum.init 0 [0]).updateParameters [1, 2] 5).Inv := by
  have h0 : (FunctionMinimum.init 0 [0]).Inv := functionMinimum_invariant.1 0 [0]
  exact ⟨functionMinimum_invariant.2.1 (FunctionMinimum.init 0 [0]) [2] true h0,
    functionMinimum_invariant.2.2.2 (FunctionMinimum.init 0 [0]) [1, 2] 5 h0⟩

/-- Claim C6: `getErrors` and `setRandomParameters` raise the
missing-covariance error exactly when no covariance is present; with a
covariance present, `getErrors` returns the `n`-vector whose `i`-th entry
is the square root of the `i`-th covariance diagonal, any negative
diagonal entry being substituted by `0`. -/
theorem missing_covariance_errors (fm : FunctionMinimum) (params : List ℝ)
    (random : ℕ → ℝ) :
    ((∃ e, fm.getErrors = .error e) ↔ fm.haveCovariance = false) ∧
    ((∃ e, fm.setRandomParameters params random = .error e) ↔
      fm.haveCovariance = false) ∧
    (∀ cv, fm._covar = some cv →
      fm.getErrors = .ok ((List.range fm._where.length).map fun i =>
        if cv.getD (i * (i + 3) / 2) 0 < 0 then 0
        else Real.sqrt (cv.getD (i * (i + 3) / 2) 0))) := by
  rcases hcv0 : fm._covar with _ | cv0
  · refine ⟨?_, ?_, ?_⟩
    · constructor
      · intro _
        simp [FunctionMinimum.haveCovariance, hcv0]
      · intro _
        refine ⟨⟨"FunctionMinimum::getErrors: no covariance matrix available."⟩, ?_⟩
        simp only [FunctionMinimum.getErrors, hcv0]
    · constructor
      · intro _
        simp [FunctionMinimum.haveCovariance, hcv0]
      · intro _
        refine ⟨⟨"FunctionMinimum::getRandomParameters: no covariance matrix available."⟩, ?_⟩
        simp only [FunctionMinimum.setRandomParameters, hcv0]
    · intro cv hcv
      exact Option.noConfusion hcv
  · have hhave : fm.haveCovariance = true := by
      simp [FunctionMinimum.haveCovariance, hcv0]
    refine ⟨?_, ?_, ?_⟩
    · constructor
      · rintro ⟨e, he⟩
        simp only [FunctionMinimum.getErrors, hcv0] at he
        exact Except.noConfusion he
      · intro hfalse
        rw [hhave] at hfalse
        exact absurd hfalse (by simp)
    · constructor
      · rintro ⟨e, he⟩
        simp only [FunctionMinimum.setRandomParameters, hcv0] at he
        exact Except.noConfusion he
      · intro hfalse
        rw [hhave] at hfalse
        exact absurd hfalse (by simp)
    · intro cv hcv
      injection hcv with hcv
      subst hcv
      simp only [FunctionMinimum.getErrors, hcv0]
      refine congrArg Except.ok (List.map_congr_left fun i _ => ?_)
      by_cases hpos : cv0.getD (i * (i + 3) / 2) 0 > 0
      · rw [if_pos hpos, if_neg (by linarith)]
      · rw [if_neg hpos]
        by_cases hneg : cv0.getD (i * (i + 3) / 2) 0 < 0
        · rw [if_pos hneg]
        · have h0 : cv0.getD (i * (i + 3) / 2) 0 = 0 :=
            le_antisymm (not_lt.mp hpos) (le_of_not_lt hneg)
          rw [if_neg hneg, h0, Real.sqrt_zero]

/-- Witness for C6: a stored covariance with a negative diagonal entry is
defensively reported as error `0`, and a state without covariance errors
out of `getErrors`. -/
theorem missing_covariance_errors_witness :
    (FunctionMinimum.mk 0 [0] (some [-1]) (some [1])).getErrors = .ok [0] ∧
      ((∃ e, (FunctionMinimum.init 0 [0]).getErrors = .error e) ↔
        (FunctionMinimum.init 0 [0]).haveCovariance = false) := by
  constructor
  · have h := (missing_covariance_errors
      (FunctionMinimum.mk 0 [0] (some [-1]) (some [1])) [] fun _ => 0).2.2
      [-1] rfl
    have hl : ((List.range
        (FunctionMinimum.mk 0 [0] (some [-1]) (some [1]))._where.length).map
        fun i => if ([(-1 : ℝ)]).getD (i * (i + 3) / 2) 0 < 0 then 0
          else Real.sqrt (([(-1 : ℝ)]).getD (i * (i + 3) / 2) 0)) = [0] := by
      show [if ([(-1 : ℝ)]).getD 0 0 < 0 then (0 : ℝ)
        else Real.sqrt (([(-1 : ℝ)]).getD 0 0)] = [0]
      rw [show ([(-1 : ℝ)]).getD 0 0 = -1 from rfl]
      norm_num
    rw [hl] at h
    exact h
  · exact (missing_covariance_errors (FunctionMinimum.init 0 [0]) []
      fun _ => 0).1

/-- Claim C8: `choleskyDecomposition` recovers the order `n` from the
packed length `L` and raises the internal-consistency error exactly when
`L` is not triangular; on a triangular length it returns a non-null packed
factor exactly when the Cholesky primitive reports status zero, and the
null "not decomposable" result otherwise.  (Its input is never modified:
the routine factors a copy, and the embedding is functional.) -/
theorem choleskyDecomposition_contract (covar : List ℝ) :
    ((∃ e, choleskyDecomposition covar = .error e) ↔
      ¬∃ m, covar.length = m * (m + 1) / 2) ∧
    (∀ m, covar.length = m * (m + 1) / 2 →
      ((∃ U, choleskyDecomposition covar = .ok (some U)) ↔
        (cholMatrix m (unpack m covar)).isSome) ∧
      choleskyDecomposition covar =
        .ok (Option.map (pack m) (cholMatrix m (unpack m covar)))) := by
  constructor
  · exact choleskyDecomposition_error_iff covar
  · intro m hm
    have ht := @choleskyDecomposition_triangular m covar hm
    constructor
    · constructor
      · rintro ⟨U, hU⟩
        rw [ht] at hU
        rcases hc : cholMatrix m (unpack m covar) with _ | V
        · rw [hc] at hU
          simp at hU
        · simp
      · intro hs
        obtain ⟨V, hV⟩ := Option.isSome_iff_exists.mp hs
        rw [ht, hV]
        exact ⟨pack m V, rfl⟩
    · rw [ht]
      rcases hc : cholMatrix m (unpack m covar) with _ | V
      · simp
      · simp

/-- The pivot of the 1x1 decomposition of the packed input `[4]`. -/
theorem cholPivot_one_four :
    cholPivot (Matrix.of fun i (_ : Fin 0) => i.elim0) (unpack 1 [(4 : ℝ)]) = 4 := by
  unfold cholPivot
  have h2 : cholSolve (Matrix.of fun i (_ : Fin 0) => i.elim0)
      (unpack 1 [(4 : ℝ)]) ⬝ᵥ
      cholSolve (Matrix.of fun i (_ : Fin 0) => i.elim0) (unpack 1 [(4 : ℝ)]) =
      0 := by
    simp [Matrix.dotProduct]
  rw [h2]
  norm_num
  rfl

/-- The primitive on the packed input `[4]` yields the factor with corner
`sqrt 4`. -/
theorem cholMatrix_one_four :
    cholMatrix 1 (unpack 1 [(4 : ℝ)]) =
      some (extendU (Matrix.of fun i (_ : Fin 0) => i.elim0)
        (cholSolve (Matrix.of fun i (_ : Fin 0) => i.elim0) (unpack 1 [(4 : ℝ)]))
        (Real.sqrt 4)) := by
  have hstep : cholMatrix 1 (unpack 1 [(4 : ℝ)]) =
      if 0 < cholPivot (Matrix.of fun i (_ : Fin 0) => i.elim0)
          (unpack 1 [(4 : ℝ)]) then
        some (extendU (Matrix.of fun i (_ : Fin 0) => i.elim0)
          (cholSolve (Matrix.of fun i (_ : Fin 0) => i.elim0)
            (unpack 1 [(4 : ℝ)]))
          (Real.sqrt (cholPivot (Matrix.of fun i (_ : Fin 0) => i.elim0)
            (unpack 1 [(4 : ℝ)]))))
      else none := rfl
  rw [hstep, if_pos (by rw [cholPivot_one_four]; norm_num), cholPivot_one_four]

theorem pack_one_corner (w : Fin 0 → ℝ) (s : ℝ) :
    pack 1 (extendU (Matrix.of fun i (_ : Fin 0) => i.elim0) w s) = [s] := by
  show pack 0 ((extendU (Matrix.of fun i (_ : Fin 0) => i.elim0) w s).submatrix
      Fin.castSucc Fin.castSucc) ++
    (List.ofFn fun i : Fin 1 =>
      extendU (Matrix.of fun i (_ : Fin 0) => i.elim0) w s i (Fin.last 0)) = [s]
  rw [show pack 0 ((extendU (Matrix.of fun i (_ : Fin 0) => i.elim0) w
      s).submatrix Fin.castSucc Fin.castSucc) = [] from rfl]
  rw [List.ofFn_succ, List.ofFn_zero]
  rw [show extendU (Matrix.of fun i (_ : Fin 0) => i.elim0) w s 0 (Fin.last 0) =
      s from extendU_last_last (Matrix.of fun i (_ : Fin 0) => i.elim0) w s]
  rfl

/-- Witness for C8 at the packed input `[4]` (a valid triangular length,
order 1): no error is raised, the result is the mapped primitive outcome,
and it evaluates concretely to the packed factor `[2]`. -/
theorem choleskyDecomposition_contract_witness :
    choleskyDecomposition [4] =
        .ok (Option.map (pack 1) (cholMatrix 1 (unpack 1 [4]))) ∧
      choleskyDecomposition [4] = .ok (some [2]) ∧
      ¬∃ e, choleskyDecomposition [4] = .error e := by
  have h := choleskyDecomposition_contract [4]
  have heval : choleskyDecomposition [4] = .ok (some [2]) := by
    have ht := @choleskyDecomposition_triangular 1 [(4 : ℝ)] rfl
    rw [cholMatrix_one_four] at ht
    simp only at ht
    rw [pack_one_corner] at ht
    have hsqrt : Real.sqrt 4 = 2 := by
      rw [show (4 : ℝ) = 2 ^ 2 by norm_num,
        Real.sqrt_sq (by norm_num : (0 : ℝ) ≤ 2)]
    rw [hsqrt] at ht
    exact ht
  refine ⟨(h.2 1 rfl).2, heval, ?_⟩
  rw [h.1]
  exact fun hc => hc ⟨1, rfl⟩
